import Mathlib

/-!
# Verification of the markdown-fixing script `fix_markdown2.py`

This development is a shallow embedding of the single source file of the
repository, a Python script that loads one text file, applies four
in-memory transformation steps, and writes the result back:

1. `re.sub(r"'•\s+([^']+?)\s+'", r"'\\n- \1'", content)`   (bullet pass A)
2. `re.sub(r"(\s+)'•\s+", r"\1'\\n- ", content)`           (bullet pass B)
3. `re.sub(r'filter:"[^"]*~[^"]*"', escape_tildes, content)` (tilde escaping)
4. four `str.replace` calls renaming quoted legacy identifiers.

Text is modelled as `List Char`.  Each `re.sub` is modelled as a
left-to-right scan (`scan`) that at every position attempts the pattern;
on a match it emits the replacement and resumes after the match, otherwise
it emits the character and moves on — exactly Python's non-overlapping
leftmost substitution.  The per-pattern matchers below are derived from
the backtracking semantics of the concrete (fixed) regular expressions;
the derivations are documented at each matcher.
-/

namespace FixMarkdown

/-- Python's `\s` class for `str` patterns: ASCII whitespace plus the
Unicode whitespace code points recognised by CPython. -/
def pySpace (c : Char) : Bool :=
  c == ' ' || c == '\t' || c == '\n' || c == '\r' || c == '\x0b' || c == '\x0c' ||
  c == '\x1c' || c == '\x1d' || c == '\x1e' || c == '\x1f' ||
  c == '\x85' || c == '\xa0' || c == ' ' ||
  (0x2000 ≤ c.toNat && c.toNat ≤ 0x200a) ||
  c == ' ' || c == ' ' || c == ' ' || c == ' ' || c == '　'

/-- Length of the maximal whitespace run at the head of the text:
what a greedy `\s+`/`\s*` consumes before any backtracking. -/
def spaceRun (l : List Char) : Nat := (l.takeWhile pySpace).length

/-! ## Bullet pass A: `re.sub(r"'•\s+([^']+?)\s+'", r"'\\n- \1'", content)`

At a candidate start the engine matches `'` and `•` literally, then
`\s+` greedily (longest whitespace run first, backtracking shorter),
then the lazy group `([^']+?)` (shortest first, growing on failure),
then `\s+` greedily followed by the literal `'`.  Because everything the
trailing `\s+` consumes is whitespace and `'` is not whitespace, that
final `\s+'` can only succeed by consuming the whole maximal whitespace
run with a quote immediately after it. -/

/-- Lazy expansion of the group `([^']+?)` followed by `\s+'`.
`acc` is the group text collected so far.  Each step adds one more
non-quote character to the group and then tests whether a nonempty
whitespace run followed by `'` completes the match. -/
def tryG : List Char → List Char → Option (List Char × List Char)
  | _, [] => none
  | acc, c :: cs =>
    if c = '\'' then none
    else
      if 0 < spaceRun cs ∧ (cs.drop (spaceRun cs)).head? = some '\'' then
        some (acc ++ [c], cs.drop (spaceRun cs + 1))
      else tryG (acc ++ [c]) cs

/-- Greedy backtracking of the first `\s+`: try consuming `k` whitespace
characters for `k` from the maximal run length down to `1`. -/
def tryW1 : Nat → List Char → Option (List Char × List Char)
  | 0, _ => none
  | k + 1, rest =>
    match tryG [] (rest.drop (k + 1)) with
    | some res => some res
    | none => tryW1 k rest

/-- Matcher for pattern A at the head of the text.  On success returns
the group text and the text after the whole match. -/
def matchA : List Char → Option (List Char × List Char)
  | a :: b :: rest =>
    if a = '\'' ∧ b = '•' then
      if spaceRun rest = 0 then none else tryW1 (spaceRun rest) rest
    else none
  | _ => none

/-- Replacement template `r"'\\n- \1'"`: a quote, a literal backslash,
`n- `, the group, a quote. -/
def repA (g : List Char) : List Char :=
  '\'' :: '\\' :: 'n' :: '-' :: ' ' :: (g ++ ['\''])

/-! ## Bullet pass B: `re.sub(r"(\s+)'•\s+", r"\1'\\n- ", content)`

At a candidate start, `(\s+)` greedily captures the maximal whitespace
run; backtracking to a shorter run cannot help, because the next
character would then be whitespace, not the required `'`.  After `'•`,
the trailing `\s+` greedily consumes the maximal whitespace run (at
least one character). -/

/-- Matcher for pattern B at the head of the text.  On success returns
the captured whitespace run and the text after the whole match. -/
def matchB (s : List Char) : Option (List Char × List Char) :=
  if spaceRun s = 0 then none
  else
    match s.drop (spaceRun s) with
    | a :: b :: rest =>
      if a = '\'' ∧ b = '•' then
        if spaceRun rest = 0 then none
        else some (s.take (spaceRun s), rest.drop (spaceRun rest))
      else none
    | _ => none

/-- Replacement template `r"\1'\\n- "`: the captured run, a quote, a
literal backslash, `n- `. -/
def repB (g : List Char) : List Char := g ++ ['\'', '\\', 'n', '-', ' ']

/-! ## Tilde escaping: `re.sub(r'filter:"[^"]*~[^"]*"', escape_tildes, content)`

After the literal `filter:"`, the two `[^"]*` pieces together span only
non-quote characters, so the closing `"` of a match is necessarily the
first quote after the literal, and the span matches exactly when the run
of non-quote characters before that quote contains at least one `~`. -/

/-- The literal prefix `filter:"` of the tilde pattern. -/
def fstr : List Char := ['f', 'i', 'l', 't', 'e', 'r', ':', '"']

/-- Python's test `'\\~' in full`: does a backslash immediately followed
by a tilde occur in the text? -/
def hasEscTilde : List Char → Bool
  | x :: y :: t => (x == '\\' && y == '~') || hasEscTilde (y :: t)
  | _ => false

/-- Python's `full.replace('~', '\\~')`: every tilde becomes
backslash-tilde (single-character pattern, so plain per-character
replacement). -/
def escTilde1 : List Char → List Char
  | [] => []
  | c :: t => if c = '~' then '\\' :: '~' :: escTilde1 t else c :: escTilde1 t

/-- The replacement function `escape_tildes` of the source: leaves the
matched span alone if it already contains an escaped tilde, otherwise
escapes every tilde in it. -/
def escape_tildes (full : List Char) : List Char :=
  if hasEscTilde full then full else escTilde1 full

/-- Matcher for the tilde pattern at the head of the text.  On success
returns the full matched span and the text after it. -/
def matchT (s : List Char) : Option (List Char × List Char) :=
  if fstr.isPrefixOf s then
    match (s.drop 8).dropWhile (fun c => c != '"') with
    | q :: u =>
      if q = '"' ∧ ((s.drop 8).takeWhile (fun c => c != '"')).contains '~' then
        some (fstr ++ (s.drop 8).takeWhile (fun c => c != '"') ++ ['"'], u)
      else none
    | [] => none
  else none

/-! ## The generic substitution scan

`scanF m fuel s` emits `s` unchanged when out of fuel (never reached
from `scan`, whose fuel is the text length), otherwise tries the matcher
at the current position: on `some (rep, rest)` it emits `rep` and
resumes at `rest`, otherwise it emits one character and moves on. -/

def scanF (m : List Char → Option (List Char × List Char)) :
    Nat → List Char → List Char
  | 0, s => s
  | _ + 1, [] => []
  | n + 1, c :: cs =>
    match m (c :: cs) with
    | some (rep, rest) => rep ++ scanF m n rest
    | none => c :: scanF m n cs

/-- Run the substitution scan with enough fuel for the whole text. -/
def scan (m : List Char → Option (List Char × List Char)) (s : List Char) :
    List Char :=
  scanF m s.length s

/-- Matcher-with-replacement for pass A. -/
def mA (s : List Char) : Option (List Char × List Char) :=
  match matchA s with
  | some (g, rest) => some (repA g, rest)
  | none => none

/-- Matcher-with-replacement for pass B. -/
def mB (s : List Char) : Option (List Char × List Char) :=
  match matchB s with
  | some (g, rest) => some (repB g, rest)
  | none => none

/-- Matcher-with-replacement for the tilde pass: the replacement is the
value of the replacement function `escape_tildes`, used literally. -/
def mT (s : List Char) : Option (List Char × List Char) :=
  match matchT s with
  | some (full, rest) => some (escape_tildes full, rest)
  | none => none

/-- Matcher for `str.replace(p, r)`: an occurrence of the (nonempty)
literal `p` at the current position. -/
def mR (p r : List Char) (s : List Char) : Option (List Char × List Char) :=
  if p.isPrefixOf s ∧ p ≠ [] then some (r, s.drop p.length) else none

/-- Line 15 of the source: bullet pass A. -/
def subA (s : List Char) : List Char := scan mA s

/-- Line 18 of the source: bullet pass B. -/
def subB (s : List Char) : List Char := scan mB s

/-- Line 29 of the source: the tilde-escaping substitution. -/
def subTilde (s : List Char) : List Char := scan mT s

/-- Python's `content.replace(p, r)` for nonempty `p`: replace all
non-overlapping occurrences, scanning left to right. -/
def strReplace (p r s : List Char) : List Char := scan (mR p r) s

/-- First legacy identifier, `"create_device_sdt"` (quotes included). -/
def p1 : List Char := "\"create_device_sdt\"".toList
/-- Its current equivalent, `"create_resource_sdt"`. -/
def r1 : List Char := "\"create_resource_sdt\"".toList
/-- Second legacy identifier. -/
def p2 : List Char := "\"list_device_datasources\"".toList
/-- Its current equivalent. -/
def r2 : List Char := "\"list_resource_datasources\"".toList
/-- Third legacy identifier. -/
def p3 : List Char := "\"list_device_properties\"".toList
/-- Its current equivalent. -/
def r3 : List Char := "\"list_resource_properties\"".toList
/-- Fourth legacy identifier. -/
def p4 : List Char := "\"update_device_property\"".toList
/-- Its current equivalent. -/
def r4 : List Char := "\"update_resource_property\"".toList

/-- Lines 32–35 of the source: the four literal renames, in order. -/
def renames (s : List Char) : List Char :=
  strReplace p4 r4 (strReplace p3 r3 (strReplace p2 r2 (strReplace p1 r1 s)))

/-- The full in-memory transformation pipeline of `main`, lines 15–35:
bullet pass A, bullet pass B, tilde escaping, then the four renames. -/
def pipeline (s : List Char) : List Char :=
  renames (subTilde (subB (subA s)))

/-- Does the literal `p` occur anywhere in the text (Python's `p in s`)? -/
def occursIn (p : List Char) : List Char → Bool
  | [] => p.isEmpty
  | c :: cs => p.isPrefixOf (c :: cs) || occursIn p cs

/-! ## Auxiliary observation functions

The remaining definitions do not embed source code; they are observation
devices used to state properties of the scans above. -/

/-- The spec's description of tilde escaping, per character: a tilde
becomes backslash-tilde, everything else is kept. -/
def escOne (c : Char) : List Char :=
  if c = '~' then ['\\', '~'] else [c]

/-- Trace of the tilde scan: the text split into single unmatched
characters (`Sum.inl`) and full matched spans (`Sum.inr`), in order. -/
def piecesF : Nat → List Char → List (Sum (List Char) (List Char))
  | 0, _ => []
  | _ + 1, [] => []
  | n + 1, c :: cs =>
    match matchT (c :: cs) with
    | some (full, rest) => Sum.inr full :: piecesF n rest
    | none => Sum.inl [c] :: piecesF n cs

/-- The piece decomposition of a text under the tilde scan. -/
def pieces (s : List Char) : List (Sum (List Char) (List Char)) :=
  piecesF s.length s

/-- Reassemble pieces without any rewriting. -/
def joinPieces (l : List (Sum (List Char) (List Char))) : List Char :=
  (l.map (Sum.elim id id)).flatten

/-- Reassemble pieces, rewriting each matched span by `escape_tildes`. -/
def joinEscPieces (l : List (Sum (List Char) (List Char))) : List Char :=
  (l.map (Sum.elim id escape_tildes)).flatten

/-- A full matched span of the tilde pattern: the literal `filter:"`,
then a quote-free body containing a tilde, then the closing quote. -/
def spanShape (full : List Char) : Bool :=
  decide (full = fstr ++ (full.drop 8).dropLast ++ ['"']) &&
    ((full.drop 8).dropLast.all (fun c => c != '"')) &&
    (full.drop 8).dropLast.contains '~'

/-- Unmatched pieces are arbitrary; matched pieces must be well-formed
spans of the tilde pattern. -/
def goodPiece : Sum (List Char) (List Char) → Bool
  | Sum.inl _ => true
  | Sum.inr full => spanShape full

/-- Every tilde in the text is immediately preceded by a backslash. -/
def allTildesEsc : List Char → Bool
  | [] => true
  | [c] => !(c = '~')
  | c :: d :: t =>
    if c = '~' then false
    else if c = '\\' ∧ d = '~' then allTildesEsc t
    else allTildesEsc (d :: t)

/-- Every matched span of the text already has all of its tildes
escaped (so the tilde scan has nothing to do). -/
def escapedPieces (s : List Char) : Bool :=
  (pieces s).all (fun pc =>
    match pc with
    | Sum.inl _ => true
    | Sum.inr full => allTildesEsc full)

/-- Number of adjacent pairs `a` followed by `b` in the text (used to
observe occurrences of backslash-tilde). -/
def pairCount (a b : Char) : List Char → Nat
  | x :: y :: t => (if x = a ∧ y = b then 1 else 0) + pairCount a b (y :: t)
  | _ => 0

/-- Does the text contain a bullet marker immediately followed by a
whitespace character? -/
def hasBulletWs : List Char → Bool
  | x :: y :: t => (x = '•' && pySpace y) || hasBulletWs (y :: t)
  | _ => false

/-- Bad-bullet count of a text relative to a flag `w` telling whether
the character immediately after the text (if any) is whitespace: the
number of bullet-marker occurrences whose next character is not
whitespace. -/
def bbW : List Char → Bool → Nat
  | [], _ => 0
  | [c], w => if c = '•' ∧ w = false then 1 else 0
  | c :: d :: t, w => (if c = '•' ∧ pySpace d = false then 1 else 0) + bbW (d :: t) w

/-- The whitespace flag a text presents to the character before it: the
whitespace status of its first character, or the fallback `w` when the
text is empty. -/
def bbCtx (v : List Char) (w : Bool) : Bool :=
  match v.head? with
  | some d => pySpace d
  | none => w

/-- Number of bullet-marker occurrences in the document that are not
immediately followed by a whitespace character (a bullet ending the
document counts as one). -/
def badBullets (s : List Char) : Nat := bbW s false

/-! ## Basic utilities -/

theorem contains_iff {l : List Char} {a : Char} : l.contains a = true ↔ a ∈ l := by
  simp [List.contains, List.elem_iff]

theorem fstr_length : fstr.length = 8 := rfl

theorem eq_append_drop_of_isPrefixOf {p s : List Char} (h : p.isPrefixOf s = true) :
    s = p ++ s.drop p.length := by
  rcases List.isPrefixOf_iff_prefix.mp h with ⟨t, rfl⟩
  rw [List.drop_left]

theorem isPrefixOf_append_self (p t : List Char) : p.isPrefixOf (p ++ t) = true :=
  List.isPrefixOf_iff_prefix.mpr (List.prefix_append p t)

theorem takeWhile_append_cons {p : Char → Bool} {a : List Char} {b : Char} (z : List Char)
    (ha : ∀ x ∈ a, p x = true) (hb : p b = false) :
    (a ++ b :: z).takeWhile p = a := by
  induction a with
  | nil => simp [List.takeWhile_cons, hb]
  | cons x xs ih =>
    have hx : p x = true := ha x (by simp)
    have ih' := ih (fun y hy => ha y (by simp [hy]))
    simp [List.takeWhile_cons, hx, ih']

theorem dropWhile_append_cons {p : Char → Bool} {a : List Char} {b : Char} (z : List Char)
    (ha : ∀ x ∈ a, p x = true) (hb : p b = false) :
    (a ++ b :: z).dropWhile p = b :: z := by
  induction a with
  | nil => simp [List.dropWhile_cons, hb]
  | cons x xs ih =>
    have hx : p x = true := ha x (by simp)
    simp only [List.cons_append, List.dropWhile_cons, hx]
    exact ih (fun y hy => ha y (by simp [hy]))

/-! ## Generic substitution-scan lemmas -/

theorem scanF_nil (m : List Char → Option (List Char × List Char)) :
    ∀ k, scanF m k [] = [] := by
  intro k; cases k <;> rfl

theorem scanF_succ_match {m : List Char → Option (List Char × List Char)}
    {n : Nat} {c : Char} {cs rep rest : List Char} (h : m (c :: cs) = some (rep, rest)) :
    scanF m (n + 1) (c :: cs) = rep ++ scanF m n rest := by
  simp only [scanF, h]

theorem scanF_succ_nomatch {m : List Char → Option (List Char × List Char)}
    {n : Nat} {c : Char} {cs : List Char} (h : m (c :: cs) = none) :
    scanF m (n + 1) (c :: cs) = c :: scanF m n cs := by
  simp only [scanF, h]

theorem scanF_congr (m : List Char → Option (List Char × List Char))
    (Hm : ∀ s rep rest, m s = some (rep, rest) → rest.length < s.length) :
    ∀ n n' s, s.length ≤ n → s.length ≤ n' → scanF m n s = scanF m n' s := by
  intro n
  induction n with
  | zero =>
    intro n' s h _
    have hs : s = [] := List.eq_nil_of_length_eq_zero (Nat.le_zero.mp h)
    subst hs; rw [scanF_nil, scanF_nil]
  | succ n ih =>
    intro n' s h h'
    match s with
    | [] => rw [scanF_nil, scanF_nil]
    | c :: cs =>
      match n' with
      | 0 => simp at h'
      | n'' + 1 =>
        cases hm : m (c :: cs) with
        | none =>
          rw [scanF_succ_nomatch hm, scanF_succ_nomatch hm]
          have h1 : cs.length ≤ n := by simp at h; omega
          have h2 : cs.length ≤ n'' := by simp at h'; omega
          rw [ih n'' cs h1 h2]
        | some pr =>
          obtain ⟨rep, rest⟩ := pr
          rw [scanF_succ_match hm, scanF_succ_match hm]
          have hl := Hm _ _ _ hm
          simp only [List.length_cons] at hl h h'
          have h1 : rest.length ≤ n := by omega
          have h2 : rest.length ≤ n'' := by omega
          rw [ih n'' rest h1 h2]

theorem scan_nil (m : List Char → Option (List Char × List Char)) : scan m [] = [] := rfl

theorem scan_nomatch {m : List Char → Option (List Char × List Char)}
    {c : Char} {cs : List Char} (h : m (c :: cs) = none) :
    scan m (c :: cs) = c :: scan m cs := by
  show scanF m (c :: cs).length (c :: cs) = _
  rw [List.length_cons, scanF_succ_nomatch h]
  rfl

theorem scan_match {m : List Char → Option (List Char × List Char)}
    (Hm : ∀ s rep rest, m s = some (rep, rest) → rest.length < s.length)
    {c : Char} {cs rep rest : List Char} (h : m (c :: cs) = some (rep, rest)) :
    scan m (c :: cs) = rep ++ scan m rest := by
  show scanF m (c :: cs).length (c :: cs) = _
  rw [List.length_cons, scanF_succ_match h]
  have hl := Hm _ _ _ h
  simp only [List.length_cons] at hl
  exact congrArg (rep ++ ·) (scanF_congr m Hm _ _ _ (by omega) (le_refl _))

/-! ## Length bounds for the four matchers -/

theorem tryG_length : ∀ (l acc g rest : List Char),
    tryG acc l = some (g, rest) → rest.length < l.length := by
  intro l
  induction l with
  | nil => intro acc g rest h; simp [tryG] at h
  | cons c cs ih =>
    intro acc g rest h
    simp only [tryG] at h
    split at h
    · simp at h
    · split at h
      · simp only [Option.some.injEq, Prod.mk.injEq] at h
        obtain ⟨-, hr⟩ := h
        rw [← hr, List.length_drop, List.length_cons]
        omega
      · have := ih _ _ _ h
        rw [List.length_cons]
        omega

theorem tryW1_length : ∀ (k : Nat) (rest g r : List Char),
    tryW1 k rest = some (g, r) → r.length < rest.length := by
  intro k
  induction k with
  | zero => intro rest g r h; simp [tryW1] at h
  | succ k ih =>
    intro rest g r h
    simp only [tryW1] at h
    cases htg : tryG [] (rest.drop (k + 1)) with
    | some res =>
      obtain ⟨g', r'⟩ := res
      simp only [htg, Option.some.injEq, Prod.mk.injEq] at h
      obtain ⟨-, hr⟩ := h
      subst hr
      have hlt := tryG_length _ _ _ _ htg
      rw [List.length_drop] at hlt
      omega
    | none =>
      simp only [htg] at h
      exact ih _ _ _ h

theorem matchA_length {s g rest : List Char} (h : matchA s = some (g, rest)) :
    rest.length < s.length := by
  match s with
  | [] => simp [matchA] at h
  | [a] => simp [matchA] at h
  | a :: b :: t =>
    simp only [matchA] at h
    split at h
    · split at h
      · simp at h
      · have := tryW1_length _ _ _ _ h
        simp only [List.length_cons]
        omega
    · simp at h

theorem matchB_spec {s g rest : List Char} (h : matchB s = some (g, rest)) :
    spaceRun s ≠ 0 ∧ ∃ rest', s.drop (spaceRun s) = '\'' :: '•' :: rest' ∧
      spaceRun rest' ≠ 0 ∧ g = s.take (spaceRun s) ∧ rest = rest'.drop (spaceRun rest') := by
  simp only [matchB] at h
  split at h
  · simp at h
  next hn =>
    rcases hd : s.drop (spaceRun s) with - | ⟨a, t⟩
    · rw [hd] at h; simp at h
    · rcases t with - | ⟨b, rest'⟩
      · rw [hd] at h; simp at h
      · rw [hd] at h
        replace h : (if a = '\'' ∧ b = '•' then
            if spaceRun rest' = 0 then none
            else some (s.take (spaceRun s), rest'.drop (spaceRun rest'))
          else none) = some (g, rest) := h
        split_ifs at h with h1 h2
        simp only [Option.some.injEq, Prod.mk.injEq] at h
        obtain ⟨hg, hr⟩ := h
        obtain ⟨rfl, rfl⟩ := h1
        exact ⟨hn, rest', rfl, h2, hg.symm, hr.symm⟩

theorem matchB_length {s g rest : List Char} (h : matchB s = some (g, rest)) :
    rest.length < s.length := by
  obtain ⟨hn, rest', hd, -, -, hr⟩ := matchB_spec h
  have hlen : (s.drop (spaceRun s)).length = s.length - spaceRun s :=
    List.length_drop _ _
  rw [hd] at hlen
  simp only [List.length_cons] at hlen
  have hpos : 0 < spaceRun s := Nat.pos_of_ne_zero hn
  rw [hr, List.length_drop]
  omega

theorem matchT_spec {s full rest : List Char} (h : matchT s = some (full, rest)) :
    ∃ body, s = fstr ++ (body ++ '"' :: rest) ∧ full = fstr ++ body ++ ['"'] ∧
      (∀ x ∈ body, (x != '"') = true) ∧ body.contains '~' = true := by
  simp only [matchT] at h
  split at h
  next hp =>
    rcases hd : (s.drop 8).dropWhile (fun c => c != '"') with - | ⟨q, u⟩
    · rw [hd] at h; simp at h
    · rw [hd] at h
      replace h : (if q = '"' ∧ ((s.drop 8).takeWhile (fun c => c != '"')).contains '~' then
          some (fstr ++ (s.drop 8).takeWhile (fun c => c != '"') ++ ['"'], u)
        else none) = some (full, rest) := h
      split_ifs at h with hq
      obtain ⟨hq1, hq2⟩ := hq
      simp only [Option.some.injEq, Prod.mk.injEq] at h
      obtain ⟨hfull, hu⟩ := h
      refine ⟨(s.drop 8).takeWhile (fun c => c != '"'), ?_, hfull.symm,
        fun x hx => by simpa using List.mem_takeWhile_imp hx, hq2⟩
      have hs : s = fstr ++ s.drop 8 := by
        have := eq_append_drop_of_isPrefixOf hp
        rwa [fstr_length] at this
      have hsplit : (s.drop 8).takeWhile (fun c => c != '"') ++
          (s.drop 8).dropWhile (fun c => c != '"') = s.drop 8 :=
        List.takeWhile_append_dropWhile _ _
      rw [hd, hq1, hu] at hsplit
      conv_lhs => rw [hs]
      exact congrArg (fstr ++ ·) hsplit.symm
  next => simp at h

theorem matchT_decomp {s full rest : List Char} (h : matchT s = some (full, rest)) :
    s = full ++ rest := by
  obtain ⟨body, hs, hfull, -, -⟩ := matchT_spec h
  rw [hs, hfull]
  simp

theorem matchT_length {s full rest : List Char} (h : matchT s = some (full, rest)) :
    rest.length < s.length := by
  rw [matchT_decomp h]
  obtain ⟨body, -, hfull, -, -⟩ := matchT_spec h
  have : full ≠ [] := by rw [hfull]; simp
  rw [List.length_append]
  have : 0 < full.length := List.length_pos.mpr this
  omega

/-! ## Length bounds for the matcher-with-replacement functions -/

theorem mA_length : ∀ (s rep rest : List Char), mA s = some (rep, rest) →
    rest.length < s.length := by
  intro s rep rest h
  simp only [mA] at h
  cases hm : matchA s with
  | none => simp only [hm] at h; exact absurd h (by simp)
  | some pr =>
    obtain ⟨g, r⟩ := pr
    simp only [hm, Option.some.injEq, Prod.mk.injEq] at h
    obtain ⟨-, hr⟩ := h
    exact hr ▸ matchA_length hm

theorem mB_length : ∀ (s rep rest : List Char), mB s = some (rep, rest) →
    rest.length < s.length := by
  intro s rep rest h
  simp only [mB] at h
  cases hm : matchB s with
  | none => simp only [hm] at h; exact absurd h (by simp)
  | some pr =>
    obtain ⟨g, r⟩ := pr
    simp only [hm, Option.some.injEq, Prod.mk.injEq] at h
    obtain ⟨-, hr⟩ := h
    exact hr ▸ matchB_length hm

theorem mT_length : ∀ (s rep rest : List Char), mT s = some (rep, rest) →
    rest.length < s.length := by
  intro s rep rest h
  simp only [mT] at h
  cases hm : matchT s with
  | none => simp only [hm] at h; exact absurd h (by simp)
  | some pr =>
    obtain ⟨full, r⟩ := pr
    simp only [hm, Option.some.injEq, Prod.mk.injEq] at h
    obtain ⟨-, hr⟩ := h
    exact hr ▸ matchT_length hm

theorem mR_length (p r : List Char) : ∀ (s rep rest : List Char),
    mR p r s = some (rep, rest) → rest.length < s.length := by
  intro s rep rest h
  simp only [mR] at h
  split at h
  case isTrue hc =>
    simp only [Option.some.injEq, Prod.mk.injEq] at h
    obtain ⟨-, hr⟩ := h
    have hle : p.length ≤ s.length := (List.isPrefixOf_iff_prefix.mp hc.1).length_le
    have hpos : 0 < p.length := List.length_pos.mpr hc.2
    rw [← hr, List.length_drop]
    omega
  case isFalse => simp at h

/-! ## The tilde matcher on decomposed text -/

theorem scan_match' {m : List Char → Option (List Char × List Char)}
    (Hm : ∀ s rep rest, m s = some (rep, rest) → rest.length < s.length)
    {s rep rest : List Char} (h : m s = some (rep, rest)) :
    scan m s = rep ++ scan m rest := by
  match s with
  | [] => have := Hm _ _ _ h; simp at this
  | c :: cs => exact scan_match Hm h

theorem mT_eq_none {s : List Char} : mT s = none ↔ matchT s = none := by
  cases hm : matchT s <;> simp [mT, hm]

theorem mT_eq_some {s rep rest : List Char} (h : mT s = some (rep, rest)) :
    ∃ full, matchT s = some (full, rest) ∧ rep = escape_tildes full := by
  cases hm : matchT s with
  | none => simp [mT, hm] at h
  | some pr =>
    obtain ⟨full, r⟩ := pr
    simp only [mT, hm, Option.some.injEq, Prod.mk.injEq] at h
    exact ⟨full, congrArg (fun z => some (full, z)) h.2, h.1.symm⟩

theorem matchT_head_ne {x : Char} (l : List Char) (hx : x ≠ 'f') :
    matchT (x :: l) = none := by
  have hpre : fstr.isPrefixOf (x :: l) = false := by
    show (('f' == x) && List.isPrefixOf ['i', 'l', 't', 'e', 'r', ':', '"'] l) = false
    have hb : ('f' == x) = false := beq_eq_false_iff_ne.mpr (Ne.symm hx)
    simp [hb]
  simp [matchT, hpre]

theorem subTilde_cons_ne {x : Char} (l : List Char) (hx : x ≠ 'f') :
    subTilde (x :: l) = x :: subTilde l :=
  scan_nomatch (by simp [mT, matchT_head_ne l hx])

theorem matchT_fstr_append (x : List Char) :
    matchT (fstr ++ x) =
      (match x.dropWhile (fun c => c != '"') with
       | q :: u =>
         if q = '"' ∧ (x.takeWhile (fun c => c != '"')).contains '~' then
           some (fstr ++ x.takeWhile (fun c => c != '"') ++ ['"'], u)
         else none
       | [] => none) := by
  have hdrop : (fstr ++ x).drop 8 = x := by
    rw [show (8 : Nat) = fstr.length from rfl]
    exact List.drop_left fstr x
  simp only [matchT, isPrefixOf_append_self, if_true, hdrop]

theorem matchT_construct {body : List Char} (x : List Char)
    (hb : ∀ c ∈ body, (c != '"') = true) (ht : body.contains '~' = true) :
    matchT (fstr ++ body ++ '"' :: x) = some (fstr ++ body ++ ['"'], x) := by
  have hq : (('"' : Char) != '"') = false := by decide
  have h1 := matchT_fstr_append (body ++ '"' :: x)
  rw [takeWhile_append_cons x hb hq, dropWhile_append_cons x hb hq] at h1
  rw [List.append_assoc fstr body ('"' :: x), h1]
  simp [contains_iff.mp ht]

/-! ## Structure of the replacement produced by `escape_tildes` -/

theorem escTilde1_append (a b : List Char) :
    escTilde1 (a ++ b) = escTilde1 a ++ escTilde1 b := by
  induction a with
  | nil => rfl
  | cons c t ih =>
    simp only [List.cons_append, escTilde1]
    split <;> simp [List.append_eq, ih]

theorem mem_escTilde1_of_mem {l : List Char} {x : Char} (h : x ∈ l) :
    x ∈ escTilde1 l := by
  induction l with
  | nil => simp at h
  | cons c t ih =>
    simp only [escTilde1]
    rcases List.mem_cons.mp h with rfl | hx
    · split
      next hc => subst hc; simp
      next => simp
    · split <;> simp [ih hx]

theorem escTilde1_noQuote {l : List Char} (h : ∀ c ∈ l, (c != '"') = true) :
    ∀ c ∈ escTilde1 l, (c != '"') = true := by
  induction l with
  | nil => simp [escTilde1]
  | cons c t ih =>
    intro x hx
    simp only [escTilde1] at hx
    have hc := h c (by simp)
    have ht : ∀ c ∈ t, (c != '"') = true := fun y hy => h y (by simp [hy])
    split at hx
    · rcases List.mem_cons.mp hx with rfl | hx'
      · decide
      · rcases List.mem_cons.mp hx' with rfl | hx'' <;> [decide; exact ih ht x hx'']
    · rcases List.mem_cons.mp hx with rfl | hx'
      · exact hc
      · exact ih ht x hx'

theorem hasEscTilde_cons_of {l : List Char} (x : Char) (h : hasEscTilde l = true) :
    hasEscTilde (x :: l) = true := by
  match l with
  | [] => simp [hasEscTilde] at h
  | y :: t => simp [hasEscTilde, h]

theorem hasEscTilde_escTilde1 {l : List Char} (h : '~' ∈ l) :
    hasEscTilde (escTilde1 l) = true := by
  induction l with
  | nil => simp at h
  | cons c t ih =>
    simp only [escTilde1]
    rcases List.mem_cons.mp h with rfl | hx
    · simp [hasEscTilde]
    · split
      · exact hasEscTilde_cons_of _ (hasEscTilde_cons_of _ (ih hx))
      · exact hasEscTilde_cons_of _ (ih hx)

theorem hasEscTilde_append_right {b : List Char} (a : List Char)
    (h : hasEscTilde b = true) : hasEscTilde (a ++ b) = true := by
  induction a with
  | nil => simpa using h
  | cons x t ih => exact hasEscTilde_cons_of x ih

theorem hasEscTilde_append_left {a : List Char} (b : List Char)
    (h : hasEscTilde a = true) : hasEscTilde (a ++ b) = true := by
  induction a with
  | nil => simp [hasEscTilde] at h
  | cons x t ih =>
    match t, h with
    | y :: u, h =>
      simp only [hasEscTilde, Bool.or_eq_true] at h
      rcases h with hpair | htail
      · simp [List.cons_append, hasEscTilde, hpair]
      · simpa [List.cons_append, hasEscTilde] using Or.inr (ih htail)

/-- The replacement emitted for a tilde-pattern match is again a
well-formed span, and it always contains an escaped tilde. -/
theorem escape_shape {s full rest : List Char} (h : matchT s = some (full, rest)) :
    ∃ body2, escape_tildes full = fstr ++ body2 ++ ['"'] ∧
      (∀ c ∈ body2, (c != '"') = true) ∧ body2.contains '~' = true ∧
      hasEscTilde (escape_tildes full) = true := by
  obtain ⟨body, -, hfull, hb, ht⟩ := matchT_spec h
  subst hfull
  unfold escape_tildes
  split
  next he => exact ⟨body, rfl, hb, ht, he⟩
  next he =>
    have htm : '~' ∈ body := contains_iff.mp ht
    have h1 : escTilde1 fstr = fstr := by decide
    have h2 : escTilde1 ['"'] = ['"'] := by decide
    have hesc : escTilde1 (fstr ++ body ++ ['"']) =
        fstr ++ escTilde1 body ++ ['"'] := by
      rw [escTilde1_append, escTilde1_append, h1, h2]
    refine ⟨escTilde1 body, hesc, escTilde1_noQuote hb, ?_, ?_⟩
    · exact contains_iff.mpr (mem_escTilde1_of_mem htm)
    · rw [hesc]
      exact hasEscTilde_append_left _
        (hasEscTilde_append_right _ (hasEscTilde_escTilde1 htm))

theorem escape_tildes_of_escaped {full : List Char} (h : hasEscTilde full = true) :
    escape_tildes full = full := by unfold escape_tildes; rw [if_pos h]

/-- Scanning a text that starts with an already-escaped span: the span is
matched again, left unchanged, and the scan continues after it. -/
theorem subTilde_esc_append {s full rest : List Char}
    (h : matchT s = some (full, rest)) (X : List Char) :
    subTilde (escape_tildes full ++ X) = escape_tildes full ++ subTilde X := by
  obtain ⟨body2, he, hb2, ht2, hesc⟩ := escape_shape h
  have hm : matchT (escape_tildes full ++ X) = some (escape_tildes full, X) := by
    rw [he]
    have hc := matchT_construct X hb2 ht2
    rw [List.append_assoc fstr body2 ['"'], List.append_assoc]
    simpa [List.append_assoc] using hc
  have hmT : mT (escape_tildes full ++ X) = some (escape_tildes full, X) := by
    simp only [mT, hm, escape_tildes_of_escaped hesc]
  exact scan_match' mT_length hmT

/-! ## What the tilde scan preserves -/

theorem subTilde_nomatch {c : Char} {cs : List Char} (h : matchT (c :: cs) = none) :
    subTilde (c :: cs) = c :: subTilde cs :=
  scan_nomatch (mT_eq_none.mpr h)

theorem subTilde_match {s full rest : List Char} (h : matchT s = some (full, rest)) :
    subTilde s = escape_tildes full ++ subTilde rest :=
  scan_match' mT_length (by simp [mT, h])

/-- The first eight characters of the text are preserved by the tilde
scan: a replacement only rewrites characters inside the body of a span,
which starts after the eight characters of `filter:"`. -/
theorem subTilde_take_eq : ∀ (n : Nat) (s : List Char), s.length ≤ n →
    ∀ k, k ≤ 8 → (subTilde s).take k = s.take k := by
  intro n
  induction n with
  | zero =>
    intro s h k _
    have hs : s = [] := List.eq_nil_of_length_eq_zero (Nat.le_zero.mp h)
    subst hs; rfl
  | succ n ih =>
    intro s h k hk
    match s with
    | [] => rfl
    | c :: cs =>
      cases hm : matchT (c :: cs) with
      | some pr =>
        obtain ⟨full, rest⟩ := pr
        rw [subTilde_match hm]
        obtain ⟨body, hs, -, -, -⟩ := matchT_spec hm
        obtain ⟨body2, he, -, -, -⟩ := escape_shape hm
        rw [he, hs]
        rw [List.append_assoc fstr body2, List.append_assoc]
        rw [List.take_append_of_le_length (by rw [fstr_length]; exact hk),
          List.take_append_of_le_length (by rw [fstr_length]; exact hk)]
      | none =>
        rw [subTilde_nomatch hm]
        match k, hk with
        | 0, _ => rfl
        | k' + 1, hk' =>
          rw [List.take_succ_cons, List.take_succ_cons,
            ih cs (by simp only [List.length_cons] at h; omega) k' (by omega)]

theorem fstr_isPrefixOf_subTilde (c : Char) (cs : List Char) :
    fstr.isPrefixOf (c :: subTilde cs) = fstr.isPrefixOf (c :: cs) := by
  have h7 : (subTilde cs).take 7 = cs.take 7 :=
    subTilde_take_eq cs.length cs (le_refl _) 7 (by omega)
  have h8 : (c :: subTilde cs).take 8 = (c :: cs).take 8 := by
    rw [List.take_succ_cons, List.take_succ_cons, h7]
  have hiff : fstr.isPrefixOf (c :: subTilde cs) = true ↔
      fstr.isPrefixOf (c :: cs) = true := by
    rw [List.isPrefixOf_iff_prefix, List.isPrefixOf_iff_prefix,
      List.prefix_iff_eq_take, List.prefix_iff_eq_take, fstr_length, h8]
  exact Bool.eq_iff_iff.mpr hiff

/-- The run of characters before the first quote is preserved by the
tilde scan: replacements happen only after the opening quote of a span. -/
theorem subTilde_takeWhile_eq : ∀ (n : Nat) (s : List Char), s.length ≤ n →
    (subTilde s).takeWhile (fun c => c != '"') = s.takeWhile (fun c => c != '"') := by
  intro n
  induction n with
  | zero =>
    intro s h
    have hs : s = [] := List.eq_nil_of_length_eq_zero (Nat.le_zero.mp h)
    subst hs; rfl
  | succ n ih =>
    intro s h
    match s with
    | [] => rfl
    | c :: cs =>
      cases hm : matchT (c :: cs) with
      | some pr =>
        obtain ⟨full, rest⟩ := pr
        rw [subTilde_match hm]
        obtain ⟨body, hs, -, -, -⟩ := matchT_spec hm
        obtain ⟨body2, he, -, -, -⟩ := escape_shape hm
        have hfpre : ∀ X : List Char,
            (fstr ++ X).takeWhile (fun c => c != '"') = ['f', 'i', 'l', 't', 'e', 'r', ':'] := by
          intro X
          have hform : fstr ++ X = ['f', 'i', 'l', 't', 'e', 'r', ':'] ++ '"' :: X := by
            simp [fstr]
          rw [hform, takeWhile_append_cons X (by decide) (by decide)]
        rw [he, hs, List.append_assoc fstr body2, List.append_assoc, hfpre, hfpre]
      | none =>
        rw [subTilde_nomatch hm]
        by_cases hc : (c != '"') = true
        · rw [List.takeWhile_cons, List.takeWhile_cons, if_pos hc, if_pos hc,
            ih cs (by simp only [List.length_cons] at h; omega)]
        · rw [List.takeWhile_cons, List.takeWhile_cons, if_neg hc, if_neg hc]

theorem subTilde_takeWhile (s : List Char) :
    (subTilde s).takeWhile (fun c => c != '"') = s.takeWhile (fun c => c != '"') :=
  subTilde_takeWhile_eq s.length s (le_refl _)

/-- Text without any quote character cannot contain a span of the tilde
pattern, so the tilde scan leaves it unchanged. -/
theorem subTilde_noQuote_aux : ∀ (n : Nat) (s : List Char), s.length ≤ n →
    (∀ x ∈ s, (x != '"') = true) → subTilde s = s := by
  intro n
  induction n with
  | zero =>
    intro s h _
    have hs : s = [] := List.eq_nil_of_length_eq_zero (Nat.le_zero.mp h)
    subst hs; rfl
  | succ n ih =>
    intro s h hq
    match s with
    | [] => rfl
    | c :: cs =>
      cases hm : matchT (c :: cs) with
      | some pr =>
        obtain ⟨full, rest⟩ := pr
        obtain ⟨body, hs, -, -, -⟩ := matchT_spec hm
        have hquote : '"' ∈ (c :: cs) := by
          rw [hs]; simp [fstr]
        have := hq '"' hquote
        simp at this
      | none =>
        rw [subTilde_nomatch hm]
        rw [ih cs (by simp only [List.length_cons] at h; omega)
          (fun x hx => hq x (by simp [hx]))]

theorem subTilde_noQuote {s : List Char} (h : ∀ x ∈ s, (x != '"') = true) :
    subTilde s = s :=
  subTilde_noQuote_aux s.length s (le_refl _) h

theorem dropWhile_head_not {p : Char → Bool} {l : List Char} {q : Char} {u : List Char}
    (h : l.dropWhile p = q :: u) : p q = false := by
  induction l with
  | nil => simp at h
  | cons x xs ih =>
    rw [List.dropWhile_cons] at h
    split at h
    · exact ih h
    next hx =>
      injection h with h1 h2
      subst h1
      exact Bool.eq_false_iff.mpr hx

/-- If the tilde pattern does not match at a position, it still does not
match there after the remainder of the text has been rewritten by the
tilde scan. -/
theorem matchT_none_pres {c : Char} {cs : List Char} (h : matchT (c :: cs) = none) :
    matchT (c :: subTilde cs) = none := by
  cases hp : fstr.isPrefixOf (c :: cs) with
  | false =>
    have hp2 : fstr.isPrefixOf (c :: subTilde cs) = false := by
      rw [fstr_isPrefixOf_subTilde, hp]
    simp [matchT, hp2]
  | true =>
    obtain ⟨t, hct⟩ := List.isPrefixOf_iff_prefix.mp hp
    have hc : c = 'f' ∧ cs = ['i', 'l', 't', 'e', 'r', ':', '"'] ++ t := by
      simp only [fstr, List.cons_append, List.cons.injEq] at hct
      exact ⟨hct.1.symm, hct.2.symm⟩
    obtain ⟨rfl, rfl⟩ := hc
    have hsub : subTilde (['i', 'l', 't', 'e', 'r', ':', '"'] ++ t) =
        ['i', 'l', 't', 'e', 'r', ':', '"'] ++ subTilde t := by
      simp only [List.cons_append, List.nil_append]
      rw [subTilde_cons_ne _ (by decide), subTilde_cons_ne _ (by decide),
        subTilde_cons_ne _ (by decide), subTilde_cons_ne _ (by decide),
        subTilde_cons_ne _ (by decide), subTilde_cons_ne _ (by decide),
        subTilde_cons_ne _ (by decide)]
    rw [hsub]
    have hshape : ∀ X : List Char,
        ('f' :: (['i', 'l', 't', 'e', 'r', ':', '"'] ++ X)) = fstr ++ X := by
      intro X; simp [fstr]
    rw [hshape]
    have h' : matchT (fstr ++ t) = none := by rw [← hshape]; exact h
    rw [matchT_fstr_append] at h' ⊢
    cases hdw : t.dropWhile (fun c => c != '"') with
    | nil =>
      have hall : ∀ x ∈ t, (x != '"') = true := List.dropWhile_eq_nil_iff.mp hdw
      rw [subTilde_noQuote hall, hdw]
    | cons q u =>
      rw [hdw] at h'
      have hq : q = '"' := by
        have hqf := dropWhile_head_not hdw
        simpa using hqf
      subst hq
      have hcont : (t.takeWhile (fun c => c != '"')).contains '~' = false := by
        cases hval : (t.takeWhile (fun c => c != '"')).contains '~' with
        | false => rfl
        | true => rw [hval] at h'; simp at h'
      cases hdw2 : (subTilde t).dropWhile (fun c => c != '"') with
      | nil => rfl
      | cons q2 u2 =>
        have hmem : '~' ∉ t.takeWhile (fun c => c != '"') := by
          intro hmm
          rw [contains_iff.mpr hmm] at hcont
          simp at hcont
        simp [subTilde_takeWhile, hmem]

/-- Idempotence of the tilde-escaping substitution, by strong induction
on the length of the text. -/
theorem subTilde_idem_aux : ∀ (n : Nat) (s : List Char), s.length ≤ n →
    subTilde (subTilde s) = subTilde s := by
  intro n
  induction n with
  | zero =>
    intro s h
    have hs : s = [] := List.eq_nil_of_length_eq_zero (Nat.le_zero.mp h)
    subst hs; rfl
  | succ n ih =>
    intro s h
    match s with
    | [] => rfl
    | c :: cs =>
      cases hm : matchT (c :: cs) with
      | some pr =>
        obtain ⟨full, rest⟩ := pr
        rw [subTilde_match hm, subTilde_esc_append hm (subTilde rest)]
        congr 1
        have hlen := matchT_length hm
        simp only [List.length_cons] at h hlen
        exact ih rest (by omega)
      | none =>
        rw [subTilde_nomatch hm, subTilde_nomatch (matchT_none_pres hm)]
        congr 1
        simp only [List.length_cons] at h
        exact ih cs (by omega)

theorem subTilde_idem (s : List Char) : subTilde (subTilde s) = subTilde s :=
  subTilde_idem_aux s.length s (le_refl _)

/-! ## The piece decomposition of the tilde scan -/

theorem piecesF_nil : ∀ k, piecesF k [] = [] := by
  intro k; cases k <;> rfl

theorem piecesF_succ_match {n : Nat} {c : Char} {cs full rest : List Char}
    (h : matchT (c :: cs) = some (full, rest)) :
    piecesF (n + 1) (c :: cs) = Sum.inr full :: piecesF n rest := by
  simp only [piecesF, h]

theorem piecesF_succ_nomatch {n : Nat} {c : Char} {cs : List Char}
    (h : matchT (c :: cs) = none) :
    piecesF (n + 1) (c :: cs) = Sum.inl [c] :: piecesF n cs := by
  simp only [piecesF, h]

theorem piecesF_congr : ∀ (n n' : Nat) (s : List Char), s.length ≤ n → s.length ≤ n' →
    piecesF n s = piecesF n' s := by
  intro n
  induction n with
  | zero =>
    intro n' s h _
    have hs : s = [] := List.eq_nil_of_length_eq_zero (Nat.le_zero.mp h)
    subst hs; rw [piecesF_nil, piecesF_nil]
  | succ n ih =>
    intro n' s h h'
    match s with
    | [] => rw [piecesF_nil, piecesF_nil]
    | c :: cs =>
      match n' with
      | 0 => simp at h'
      | n'' + 1 =>
        cases hm : matchT (c :: cs) with
        | none =>
          rw [piecesF_succ_nomatch hm, piecesF_succ_nomatch hm]
          simp only [List.length_cons] at h h'
          rw [ih n'' cs (by omega) (by omega)]
        | some pr =>
          obtain ⟨full, rest⟩ := pr
          rw [piecesF_succ_match hm, piecesF_succ_match hm]
          have hl := matchT_length hm
          simp only [List.length_cons] at hl h h'
          rw [ih n'' rest (by omega) (by omega)]

theorem pieces_nil : pieces [] = [] := rfl

theorem pieces_match {c : Char} {cs full rest : List Char}
    (h : matchT (c :: cs) = some (full, rest)) :
    pieces (c :: cs) = Sum.inr full :: pieces rest := by
  show piecesF (c :: cs).length (c :: cs) = _
  rw [List.length_cons, piecesF_succ_match h]
  have hl := matchT_length h
  simp only [List.length_cons] at hl
  rw [piecesF_congr cs.length rest.length rest (by omega) (le_refl _)]
  rfl

theorem pieces_nomatch {c : Char} {cs : List Char} (h : matchT (c :: cs) = none) :
    pieces (c :: cs) = Sum.inl [c] :: pieces cs := by
  show piecesF (c :: cs).length (c :: cs) = _
  rw [List.length_cons, piecesF_succ_nomatch h]
  rfl

/-- Reassembling the pieces gives back the original text. -/
theorem joinPieces_pieces : ∀ (n : Nat) (s : List Char), s.length ≤ n →
    joinPieces (pieces s) = s := by
  intro n
  induction n with
  | zero =>
    intro s h
    have hs : s = [] := List.eq_nil_of_length_eq_zero (Nat.le_zero.mp h)
    subst hs; rfl
  | succ n ih =>
    intro s h
    match s with
    | [] => rfl
    | c :: cs =>
      cases hm : matchT (c :: cs) with
      | some pr =>
        obtain ⟨full, rest⟩ := pr
        rw [pieces_match hm]
        have hl := matchT_length hm
        simp only [List.length_cons] at hl h
        have := ih rest (by omega)
        simp only [joinPieces, List.map_cons, List.flatten_cons, Sum.elim_inr, id] at this ⊢
        rw [this, ← matchT_decomp hm]
      | none =>
        rw [pieces_nomatch hm]
        simp only [List.length_cons] at h
        have := ih cs (by omega)
        simp only [joinPieces, List.map_cons, List.flatten_cons, Sum.elim_inl, id] at this ⊢
        rw [this]
        rfl

/-- The tilde scan is exactly: keep unmatched characters, rewrite each
matched span with `escape_tildes`. -/
theorem subTilde_eq_joinEsc : ∀ (n : Nat) (s : List Char), s.length ≤ n →
    subTilde s = joinEscPieces (pieces s) := by
  intro n
  induction n with
  | zero =>
    intro s h
    have hs : s = [] := List.eq_nil_of_length_eq_zero (Nat.le_zero.mp h)
    subst hs; rfl
  | succ n ih =>
    intro s h
    match s with
    | [] => rfl
    | c :: cs =>
      cases hm : matchT (c :: cs) with
      | some pr =>
        obtain ⟨full, rest⟩ := pr
        rw [pieces_match hm, subTilde_match hm]
        have hl := matchT_length hm
        simp only [List.length_cons] at hl h
        have := ih rest (by omega)
        simp only [joinEscPieces, List.map_cons, List.flatten_cons, Sum.elim_inr] at this ⊢
        rw [this]
      | none =>
        rw [pieces_nomatch hm, subTilde_nomatch hm]
        simp only [List.length_cons] at h
        have := ih cs (by omega)
        simp only [joinEscPieces, List.map_cons, List.flatten_cons, Sum.elim_inl, id] at this ⊢
        rw [this]
        rfl

/-- Every matched piece is a well-formed span of the tilde pattern. -/
theorem pieces_good : ∀ (n : Nat) (s : List Char), s.length ≤ n →
    (pieces s).all goodPiece = true := by
  intro n
  induction n with
  | zero =>
    intro s h
    have hs : s = [] := List.eq_nil_of_length_eq_zero (Nat.le_zero.mp h)
    subst hs; rfl
  | succ n ih =>
    intro s h
    match s with
    | [] => rfl
    | c :: cs =>
      cases hm : matchT (c :: cs) with
      | some pr =>
        obtain ⟨full, rest⟩ := pr
        rw [pieces_match hm]
        obtain ⟨body, -, hfull, hb, ht⟩ := matchT_spec hm
        have hshape : spanShape full = true := by
          have hdrop : full.drop 8 = body ++ ['"'] := by
            rw [hfull, List.append_assoc, show (8 : Nat) = fstr.length from rfl,
              List.drop_left]
          have hlast : (full.drop 8).dropLast = body := by
            rw [hdrop, List.dropLast_concat]
          simp only [spanShape, hlast, Bool.and_eq_true, decide_eq_true_eq]
          refine ⟨⟨?_, ?_⟩, ht⟩
          · rw [hfull]
          · rw [List.all_eq_true]; exact hb
        have hl := matchT_length hm
        simp only [List.length_cons] at hl h
        simp only [List.all_cons, goodPiece, hshape, Bool.true_and]
        exact ih rest (by omega)
      | none =>
        rw [pieces_nomatch hm]
        simp only [List.length_cons] at h
        simp only [List.all_cons, goodPiece, Bool.true_and]
        exact ih cs (by omega)

/-! ## Spans whose tildes are all escaped -/

theorem hasEscTilde_of_allTildesEsc : ∀ (l : List Char), '~' ∈ l →
    allTildesEsc l = true → hasEscTilde l = true := by
  intro l
  induction l with
  | nil => intro hm _; simp at hm
  | cons c cs ih =>
    intro hm ha
    match cs with
    | [] =>
      have hc : '~' = c := by simpa using hm
      subst hc
      simp [allTildesEsc] at ha
    | d :: t =>
      by_cases hc : c = '~'
      · subst hc; simp [allTildesEsc] at ha
      · by_cases hp : c = '\\' ∧ d = '~'
        · obtain ⟨rfl, rfl⟩ := hp
          simp [hasEscTilde]
        · simp only [allTildesEsc, if_neg hc, if_neg hp] at ha
          have hm' : '~' ∈ d :: t := by
            rcases List.mem_cons.mp hm with h1 | h2
            · exact absurd h1.symm hc
            · exact h2
          exact hasEscTilde_cons_of c (ih hm' ha)

/-- If every matched span already has all tildes escaped, the tilde scan
is the identity. -/
theorem escaped_subTilde_aux : ∀ (n : Nat) (s : List Char), s.length ≤ n →
    escapedPieces s = true → subTilde s = s := by
  intro n
  induction n with
  | zero =>
    intro s h _
    have hs : s = [] := List.eq_nil_of_length_eq_zero (Nat.le_zero.mp h)
    subst hs; rfl
  | succ n ih =>
    intro s h he
    match s with
    | [] => rfl
    | c :: cs =>
      cases hm : matchT (c :: cs) with
      | some pr =>
        obtain ⟨full, rest⟩ := pr
        rw [escapedPieces, pieces_match hm] at he
        simp only [List.all_cons, Bool.and_eq_true] at he
        obtain ⟨hfullesc, hrest⟩ := he
        obtain ⟨body, -, hfull, hb, ht⟩ := matchT_spec hm
        have hmem : '~' ∈ full := by
          rw [hfull]
          simp [contains_iff.mp ht]
        have hesc := hasEscTilde_of_allTildesEsc full hmem hfullesc
        rw [subTilde_match hm, escape_tildes_of_escaped hesc]
        have hl := matchT_length hm
        simp only [List.length_cons] at hl h
        rw [ih rest (by omega) hrest]
        exact (matchT_decomp hm).symm
      | none =>
        rw [escapedPieces, pieces_nomatch hm] at he
        simp only [List.all_cons, Bool.and_eq_true] at he
        rw [subTilde_nomatch hm]
        simp only [List.length_cons] at h
        rw [ih cs (by omega) he.2]

/-- `escTilde1` is exactly the per-character substitution the spec
describes: a tilde becomes backslash-tilde, all else is kept. -/
theorem escTilde1_eq_flatten (l : List Char) :
    escTilde1 l = (l.map escOne).flatten := by
  induction l with
  | nil => rfl
  | cons c t ih =>
    by_cases hc : c = '~'
    · subst hc; simp [escTilde1, escOne, ih]
    · simp [escTilde1, escOne, hc, ih]

/-! ## The literal replacement scan -/

theorem mR_pos {p r s : List Char} (h1 : p.isPrefixOf s = true) (h2 : p ≠ []) :
    mR p r s = some (r, s.drop p.length) := by simp [mR, h1, h2]

theorem mR_neg {p r : List Char} {s : List Char} (h : p.isPrefixOf s = false) :
    mR p r s = none := by simp [mR, h]

theorem strReplace_nomatch {p r : List Char} {c : Char} {cs : List Char}
    (h : p.isPrefixOf (c :: cs) = false) :
    strReplace p r (c :: cs) = c :: strReplace p r cs :=
  scan_nomatch (mR_neg h)

theorem strReplace_match {p r s : List Char} (h1 : p.isPrefixOf s = true)
    (h2 : p ≠ []) :
    strReplace p r s = r ++ strReplace p r (s.drop p.length) :=
  scan_match' (mR_length p r) (mR_pos h1 h2)

/-- A text in which the literal does not occur is left unchanged by the
replacement. -/
theorem strReplace_of_not_occursIn {p r : List Char} :
    ∀ (s : List Char), occursIn p s = false → strReplace p r s = s := by
  intro s
  induction s with
  | nil => intro _; rfl
  | cons c cs ih =>
    intro h
    simp only [occursIn, Bool.or_eq_false_iff] at h
    rw [strReplace_nomatch h.1, ih h.2]

theorem isPrefixOf_take {p s : List Char} {k : Nat} (hk : p.length ≤ k) :
    p.isPrefixOf (s.take k) = p.isPrefixOf s := by
  apply Bool.eq_iff_iff.mpr
  rw [List.isPrefixOf_iff_prefix, List.isPrefixOf_iff_prefix,
    List.prefix_iff_eq_take, List.prefix_iff_eq_take, List.take_take,
    Nat.min_eq_left hk]

/-- When the leftmost occurrence of the literal starts right after `x`,
the scan copies `x`, replaces that occurrence, and continues after it. -/
theorem strReplace_leftmost : ∀ (x : List Char) {p r y : List Char}, p ≠ [] →
    occursIn p ((x ++ p ++ y).take (x.length + p.length - 1)) = false →
    strReplace p r (x ++ p ++ y) = x ++ r ++ strReplace p r y := by
  intro x
  induction x with
  | nil =>
    intro p r y hp _
    simp only [List.nil_append]
    rw [strReplace_match (isPrefixOf_append_self p y) hp, List.drop_left]
  | cons c x' ih =>
    intro p r y hp h
    have hlen : 1 ≤ p.length := List.length_pos.mpr hp
    have hwin : ((c :: x') ++ p ++ y).take ((c :: x').length + p.length - 1) =
        c :: ((x' ++ p ++ y).take (x'.length + p.length - 1)) := by
      simp only [List.cons_append, List.length_cons]
      rw [show x'.length + 1 + p.length - 1 = (x'.length + p.length - 1) + 1 by omega,
        List.take_succ_cons]
    rw [hwin] at h
    simp only [occursIn, Bool.or_eq_false_iff] at h
    obtain ⟨hnp, hrest⟩ := h
    have hnp' : p.isPrefixOf (((c :: x') ++ p ++ y).take
        ((c :: x').length + p.length - 1)) = false := by
      rw [hwin]; exact hnp
    have hnp2 : p.isPrefixOf ((c :: x') ++ p ++ y) = false := by
      have htk := @isPrefixOf_take p ((c :: x') ++ p ++ y)
        ((c :: x').length + p.length - 1)
        (by have hcx : (c :: x').length = x'.length + 1 := List.length_cons c x'; omega)
      rw [← htk]
      exact hnp'
    have hshape : (c :: x') ++ p ++ y = c :: (x' ++ p ++ y) := by simp
    rw [hshape] at hnp2
    rw [hshape, strReplace_nomatch hnp2, ih hp hrest]
    simp

/-! ## Bullet matchers require a bullet followed by whitespace -/

theorem mA_eq_none {s : List Char} : mA s = none ↔ matchA s = none := by
  cases hm : matchA s <;> simp [mA, hm]

theorem mB_eq_none {s : List Char} : mB s = none ↔ matchB s = none := by
  cases hm : matchB s <;> simp [mB, hm]

theorem subA_nomatch {c : Char} {cs : List Char} (h : matchA (c :: cs) = none) :
    subA (c :: cs) = c :: subA cs :=
  scan_nomatch (mA_eq_none.mpr h)

theorem subA_match {s g rest : List Char} (h : matchA s = some (g, rest)) :
    subA s = repA g ++ subA rest :=
  scan_match' mA_length (by simp [mA, h])

theorem subB_nomatch {c : Char} {cs : List Char} (h : matchB (c :: cs) = none) :
    subB (c :: cs) = c :: subB cs :=
  scan_nomatch (mB_eq_none.mpr h)

theorem subB_match {s g rest : List Char} (h : matchB s = some (g, rest)) :
    subB s = repB g ++ subB rest :=
  scan_match' mB_length (by simp [mB, h])

theorem strReplace_mR_nomatch {p r : List Char} {c : Char} {cs : List Char}
    (h : mR p r (c :: cs) = none) :
    strReplace p r (c :: cs) = c :: strReplace p r cs :=
  scan_nomatch h

theorem strReplace_mR_match {p r s rep rest : List Char}
    (h : mR p r s = some (rep, rest)) :
    strReplace p r s = rep ++ strReplace p r rest :=
  scan_match' (mR_length p r) h

theorem spaceRun_head {l : List Char} (h : spaceRun l ≠ 0) :
    ∃ w t, l = w :: t ∧ pySpace w = true := by
  match l with
  | [] => simp [spaceRun] at h
  | w :: t =>
    refine ⟨w, t, rfl, ?_⟩
    by_contra hw
    have hw' : pySpace w = false := Bool.eq_false_iff.mpr hw
    simp [spaceRun, List.takeWhile_cons, hw'] at h

theorem matchA_some_shape {s g rest : List Char} (h : matchA s = some (g, rest)) :
    ∃ rest₀, s = '\'' :: '•' :: rest₀ ∧ spaceRun rest₀ ≠ 0 := by
  match s with
  | [] => simp [matchA] at h
  | [a] => simp [matchA] at h
  | a :: b :: t =>
    simp only [matchA] at h
    split at h
    next hab =>
      split at h
      · simp at h
      next hsr => exact ⟨t, by rw [hab.1, hab.2], hsr⟩
    · simp at h

theorem hasBulletWs_tail {c : Char} {cs : List Char}
    (h : hasBulletWs (c :: cs) = false) : hasBulletWs cs = false := by
  match cs with
  | [] => rfl
  | y :: t =>
    simp only [hasBulletWs, Bool.or_eq_false_iff] at h
    exact h.2

theorem hasBulletWs_of_matchA {s g rest : List Char} (h : matchA s = some (g, rest)) :
    hasBulletWs s = true := by
  obtain ⟨rest₀, hs, hsr⟩ := matchA_some_shape h
  obtain ⟨w, t, hr, hw⟩ := spaceRun_head hsr
  subst hs; subst hr
  simp [hasBulletWs, hw]

theorem hasBulletWs_append {a : List Char} {w : Char} {t : List Char}
    (hw : pySpace w = true) : hasBulletWs (a ++ '•' :: w :: t) = true := by
  induction a with
  | nil => simp [hasBulletWs, hw]
  | cons x xs ih =>
    match xs with
    | [] => simp [hasBulletWs, hw]
    | y :: u =>
      simp only [List.cons_append, hasBulletWs, Bool.or_eq_true]
      right
      exact ih

theorem hasBulletWs_of_matchB {s g rest : List Char} (h : matchB s = some (g, rest)) :
    hasBulletWs s = true := by
  obtain ⟨hn, rest', hd, hm, -, -⟩ := matchB_spec h
  obtain ⟨w, t, hr, hw⟩ := spaceRun_head hm
  have hsplit : s = s.take (spaceRun s) ++ s.drop (spaceRun s) :=
    (List.take_append_drop _ _).symm
  rw [hd, hr] at hsplit
  have hform : s = (s.take (spaceRun s) ++ ['\'']) ++ '•' :: w :: t := by
    conv_lhs => rw [hsplit]
    simp
  rw [hform]
  exact hasBulletWs_append hw

/-- Text with no bullet followed by whitespace is untouched by pass A. -/
theorem subA_id_of_no_bulletWs : ∀ (s : List Char), hasBulletWs s = false →
    subA s = s := by
  intro s
  induction s with
  | nil => intro _; rfl
  | cons c cs ih =>
    intro h
    cases hm : matchA (c :: cs) with
    | some pr =>
      obtain ⟨g, rest⟩ := pr
      rw [hasBulletWs_of_matchA hm] at h
      simp at h
    | none =>
      rw [subA_nomatch hm, ih (hasBulletWs_tail h)]

/-- Text with no bullet followed by whitespace is untouched by pass B. -/
theorem subB_id_of_no_bulletWs : ∀ (s : List Char), hasBulletWs s = false →
    subB s = s := by
  intro s
  induction s with
  | nil => intro _; rfl
  | cons c cs ih =>
    intro h
    cases hm : matchB (c :: cs) with
    | some pr =>
      obtain ⟨g, rest⟩ := pr
      rw [hasBulletWs_of_matchB hm] at h
      simp at h
    | none =>
      rw [subB_nomatch hm, ih (hasBulletWs_tail h)]

theorem bullet_mem_of_hasBulletWs : ∀ (l : List Char), hasBulletWs l = true →
    '•' ∈ l := by
  intro l
  induction l with
  | nil => intro h; simp [hasBulletWs] at h
  | cons c cs ih =>
    intro h
    match cs, h with
    | y :: t, h =>
      simp only [hasBulletWs, Bool.or_eq_true, Bool.and_eq_true, decide_eq_true_eq] at h
      rcases h with ⟨rfl, -⟩ | htail
      · simp
      · exact List.mem_cons_of_mem c (ih htail)

theorem hasBulletWs_eq_false_of_not_mem {l : List Char} (h : '•' ∉ l) :
    hasBulletWs l = false := by
  cases hb : hasBulletWs l with
  | false => rfl
  | true => exact absurd (bullet_mem_of_hasBulletWs l hb) h

/-! ## The tilde scan and the renames preserve bullet characters -/

theorem count_escTilde1 (l : List Char) :
    List.count '•' (escTilde1 l) = List.count '•' l := by
  induction l with
  | nil => rfl
  | cons c t ih =>
    by_cases hc : c = '~'
    · subst hc; simp [escTilde1, List.count_cons, ih]
    · simp [escTilde1, hc, List.count_cons, ih]

theorem count_escape_tildes (full : List Char) :
    List.count '•' (escape_tildes full) = List.count '•' full := by
  unfold escape_tildes
  split
  · rfl
  · exact count_escTilde1 full

theorem count_subTilde_aux : ∀ (n : Nat) (s : List Char), s.length ≤ n →
    List.count '•' (subTilde s) = List.count '•' s := by
  intro n
  induction n with
  | zero =>
    intro s h
    have hs : s = [] := List.eq_nil_of_length_eq_zero (Nat.le_zero.mp h)
    subst hs; rfl
  | succ n ih =>
    intro s h
    match s with
    | [] => rfl
    | c :: cs =>
      cases hm : matchT (c :: cs) with
      | some pr =>
        obtain ⟨full, rest⟩ := pr
        rw [subTilde_match hm, matchT_decomp hm, List.count_append, List.count_append,
          count_escape_tildes]
        have hl := matchT_length hm
        simp only [List.length_cons] at hl h
        rw [ih rest (by omega)]
      | none =>
        rw [subTilde_nomatch hm, List.count_cons, List.count_cons]
        simp only [List.length_cons] at h
        rw [ih cs (by omega)]

theorem count_strReplace_aux (p r : List Char)
    (hc : List.count '•' p = List.count '•' r) :
    ∀ (n : Nat) (s : List Char), s.length ≤ n →
    List.count '•' (strReplace p r s) = List.count '•' s := by
  intro n
  induction n with
  | zero =>
    intro s h
    have hs : s = [] := List.eq_nil_of_length_eq_zero (Nat.le_zero.mp h)
    subst hs; rfl
  | succ n ih =>
    intro s h
    match s with
    | [] => rfl
    | c :: cs =>
      cases hm : mR p r (c :: cs) with
      | some pr =>
        obtain ⟨rep, rest⟩ := pr
        have hcond : p.isPrefixOf (c :: cs) = true ∧ p ≠ [] ∧
            rep = r ∧ rest = (c :: cs).drop p.length := by
          simp only [mR] at hm
          split at hm
          next hcc =>
            simp only [Option.some.injEq, Prod.mk.injEq] at hm
            exact ⟨hcc.1, hcc.2, hm.1.symm, hm.2.symm⟩
          · simp at hm
        obtain ⟨hpre, hne, rfl, rfl⟩ := hcond
        rw [strReplace_mR_match hm]
        have hdec : (c :: cs) = p ++ (c :: cs).drop p.length :=
          eq_append_drop_of_isPrefixOf hpre
        conv_rhs => rw [hdec]
        rw [List.count_append, List.count_append, hc]
        have hlp : 0 < p.length := List.length_pos.mpr hne
        have hlen : ((c :: cs).drop p.length).length = (c :: cs).length - p.length :=
          List.length_drop _ _
        simp only [List.length_cons] at h hlen
        rw [ih _ (by omega)]
      | none =>
        rw [strReplace_mR_nomatch hm, List.count_cons, List.count_cons]
        simp only [List.length_cons] at h
        rw [ih cs (by omega)]

theorem count_renames (s : List Char) :
    List.count '•' (renames s) = List.count '•' s := by
  unfold renames
  rw [count_strReplace_aux p4 r4 (by decide) _ _ (le_refl _),
    count_strReplace_aux p3 r3 (by decide) _ _ (le_refl _),
    count_strReplace_aux p2 r2 (by decide) _ _ (le_refl _),
    count_strReplace_aux p1 r1 (by decide) _ _ (le_refl _)]

/-! ## Counting backslash-tilde pairs -/

theorem pairCount_cons_cons (a b c d : Char) (l : List Char) :
    pairCount a b (c :: d :: l) = (if c = a ∧ d = b then 1 else 0) + pairCount a b (d :: l) :=
  rfl

theorem pairCount_cons_not_left {a c : Char} (b : Char) {l : List Char} (hc : c ≠ a) :
    pairCount a b (c :: l) = pairCount a b l := by
  match l with
  | [] => rfl
  | d :: t =>
    rw [pairCount_cons_cons, if_neg (fun hh => hc hh.1)]
    simp

theorem pairCount_cons_cons_zero {a b c d : Char} {l : List Char}
    (h : ¬(c = a ∧ d = b)) :
    pairCount a b (c :: d :: l) = pairCount a b (d :: l) := by
  rw [pairCount_cons_cons, if_neg h]
  simp

theorem pairCount_append_cons (a b : Char) :
    ∀ (u : List Char) (x : Char) (v : List Char),
    pairCount a b (u ++ x :: v) = pairCount a b (u ++ [x]) + pairCount a b (x :: v) := by
  intro u
  induction u with
  | nil =>
    intro x v
    simp only [List.nil_append]
    show pairCount a b (x :: v) = pairCount a b [x] + pairCount a b (x :: v)
    show pairCount a b (x :: v) = 0 + pairCount a b (x :: v)
    omega
  | cons c u' ih =>
    intro x v
    match u' with
    | [] =>
      simp only [List.cons_append, List.nil_append]
      rw [pairCount_cons_cons]
      show _ = pairCount a b [c, x] + _
      rw [pairCount_cons_cons]
      show _ = ((if c = a ∧ x = b then 1 else 0) + 0) + _
      omega
    | d :: u'' =>
      have ih' := ih x v
      simp only [List.cons_append] at ih' ⊢
      rw [pairCount_cons_cons, ih', pairCount_cons_cons]
      omega

theorem pairCount_append_not_left {a : Char} (b : Char) :
    ∀ (w X : List Char), (∀ x ∈ w, x ≠ a) →
    pairCount a b (w ++ X) = pairCount a b X := by
  intro w
  induction w with
  | nil => intro X _; rfl
  | cons c w' ih =>
    intro X h
    simp only [List.cons_append]
    rw [pairCount_cons_not_left b (h c (by simp)), ih X (fun x hx => h x (by simp [hx]))]

theorem pairCount_append_single_ne {a b : Char} :
    ∀ (g : List Char) (y z : Char), y ≠ b → z ≠ b →
    pairCount a b (g ++ [y]) = pairCount a b (g ++ [z]) := by
  intro g
  induction g with
  | nil => intro y z _ _; rfl
  | cons c g' ih =>
    intro y z hy hz
    match g' with
    | [] =>
      simp only [List.cons_append, List.nil_append]
      rw [pairCount_cons_cons, pairCount_cons_cons,
        if_neg (fun hh => hy hh.2), if_neg (fun hh => hz hh.2)]
      rfl
    | d :: g'' =>
      simp only [List.cons_append] at ih ⊢
      rw [pairCount_cons_cons, pairCount_cons_cons, ih y z hy hz]

theorem pySpace_ne_backslash {x : Char} (hx : pySpace x = true) : x ≠ '\\' := by
  intro he; subst he
  exact absurd hx (by decide)

theorem pySpace_ne_tilde {x : Char} (hx : pySpace x = true) : x ≠ '~' := by
  intro he; subst he
  exact absurd hx (by decide)

/-! ## Full decomposition of a pass-A match -/

theorem take_spaceRun_spec (cs : List Char) :
    cs.take (spaceRun cs) = cs.takeWhile pySpace := by
  have hpre : cs.takeWhile pySpace <+: cs := List.takeWhile_prefix pySpace
  exact (List.prefix_iff_eq_take.mp hpre).symm

theorem take_le_spaceRun_all {cs : List Char} {j : Nat} (hj : j ≤ spaceRun cs) :
    ∀ x ∈ cs.take j, pySpace x = true := by
  intro x hx
  have h1 : cs.take j = (cs.take (spaceRun cs)).take j := by
    rw [List.take_take, Nat.min_eq_left hj]
  rw [h1, take_spaceRun_spec] at hx
  exact List.mem_takeWhile_imp (List.take_subset j _ hx)

theorem spaceRun_le_length (cs : List Char) : spaceRun cs ≤ cs.length :=
  (List.takeWhile_prefix pySpace).length_le

theorem tryG_spec : ∀ (l acc g rest : List Char), tryG acc l = some (g, rest) →
    ∃ e w2, l = e ++ (w2 ++ '\'' :: rest) ∧ g = acc ++ e ∧
      w2 ≠ [] ∧ (∀ x ∈ w2, pySpace x = true) := by
  intro l
  induction l with
  | nil => intro acc g rest h; simp [tryG] at h
  | cons c cs ih =>
    intro acc g rest h
    simp only [tryG] at h
    split at h
    · simp at h
    next hc =>
      split at h
      next hcond =>
        obtain ⟨hm0, hhead⟩ := hcond
        simp only [Option.some.injEq, Prod.mk.injEq] at h
        obtain ⟨hg, hr⟩ := h
        have hdrop : cs.drop (spaceRun cs) = '\'' :: cs.drop (spaceRun cs + 1) := by
          cases hd : cs.drop (spaceRun cs) with
          | nil => rw [hd] at hhead; simp at hhead
          | cons q u =>
            rw [hd] at hhead
            simp only [List.head?_cons, Option.some.injEq] at hhead
            subst hhead
            have h2 : (cs.drop (spaceRun cs)).drop 1 = cs.drop (spaceRun cs + 1) :=
              List.drop_drop 1 (spaceRun cs) cs
            rw [hd] at h2
            simp only [List.drop_succ_cons, List.drop_zero] at h2
            rw [h2]
        refine ⟨[c], cs.take (spaceRun cs), ?_, hg.symm, ?_, ?_⟩
        · rw [← hr]
          have hsplit : cs = cs.take (spaceRun cs) ++ cs.drop (spaceRun cs) :=
            (List.take_append_drop _ _).symm
          conv_lhs => rw [hsplit]
          rw [hdrop]
          simp
        · have hlt : (cs.take (spaceRun cs)).length = spaceRun cs := by
            rw [List.length_take, Nat.min_eq_left (spaceRun_le_length cs)]
          intro hemp
          rw [hemp] at hlt
          simp at hlt
          omega
        · exact take_le_spaceRun_all (le_refl _)
      next =>
        obtain ⟨e, w2, hl, hg, hw2ne, hw2⟩ := ih (acc ++ [c]) g rest h
        refine ⟨c :: e, w2, by rw [hl]; simp, by rw [hg]; simp, hw2ne, hw2⟩

theorem tryW1_spec : ∀ (k : Nat) (rest : List Char) {g r : List Char},
    tryW1 k rest = some (g, r) →
    ∃ j, 1 ≤ j ∧ j ≤ k ∧ tryG [] (rest.drop j) = some (g, r) := by
  intro k
  induction k with
  | zero => intro rest g r h; simp [tryW1] at h
  | succ k ih =>
    intro rest g r h
    simp only [tryW1] at h
    cases htg : tryG [] (rest.drop (k + 1)) with
    | some res =>
      simp only [htg] at h
      exact ⟨k + 1, by omega, le_refl _, by rw [htg, h]⟩
    | none =>
      simp only [htg] at h
      obtain ⟨j, h1, h2, h3⟩ := ih rest h
      exact ⟨j, h1, by omega, h3⟩

theorem matchA_spec {s g rest : List Char} (h : matchA s = some (g, rest)) :
    ∃ w1 w2, s = '\'' :: '•' :: (w1 ++ (g ++ (w2 ++ '\'' :: rest))) ∧
      w1 ≠ [] ∧ (∀ x ∈ w1, pySpace x = true) ∧
      w2 ≠ [] ∧ (∀ x ∈ w2, pySpace x = true) := by
  obtain ⟨rest₀, hs, hsr⟩ := matchA_some_shape h
  subst hs
  have h' : tryW1 (spaceRun rest₀) rest₀ = some (g, rest) := by
    simpa [matchA, hsr] using h
  obtain ⟨j, hj1, hj2, htg⟩ := tryW1_spec _ _ h'
  obtain ⟨e, w2, hl, hg, hw2ne, hw2⟩ := tryG_spec _ _ _ _ htg
  simp only [List.nil_append] at hg
  subst hg
  refine ⟨rest₀.take j, w2, ?_, ?_, take_le_spaceRun_all hj2, hw2ne, hw2⟩
  · have hsplit : rest₀ = rest₀.take j ++ rest₀.drop j :=
      (List.take_append_drop _ _).symm
    conv_lhs => rw [hsplit]
    rw [hl]
  · have hjle : j ≤ rest₀.length := le_trans hj2 (spaceRun_le_length rest₀)
    have hlt : (rest₀.take j).length = j := by
      rw [List.length_take, Nat.min_eq_left hjle]
    intro hemp
    rw [hemp] at hlt
    simp at hlt
    omega

/-- Pass A neither creates nor destroys backslash-tilde pairs.  The
second conjunct strengthens the statement across a left boundary. -/
theorem pairCount_subA_aux : ∀ (n : Nat) (s : List Char), s.length ≤ n →
    pairCount '\\' '~' (subA s) = pairCount '\\' '~' s ∧
    ∀ c, pairCount '\\' '~' (c :: subA s) = pairCount '\\' '~' (c :: s) := by
  intro n
  induction n with
  | zero =>
    intro s h
    have hs : s = [] := List.eq_nil_of_length_eq_zero (Nat.le_zero.mp h)
    subst hs
    exact ⟨rfl, fun _ => rfl⟩
  | succ n ih =>
    intro s h
    match s with
    | [] => exact ⟨rfl, fun _ => rfl⟩
    | c₀ :: cs =>
      cases hm : matchA (c₀ :: cs) with
      | none =>
        have htl : cs.length ≤ n := by simp only [List.length_cons] at h; omega
        obtain ⟨ih1, ih2⟩ := ih cs htl
        rw [subA_nomatch hm]
        refine ⟨ih2 c₀, fun c => ?_⟩
        rw [pairCount_cons_cons, pairCount_cons_cons, ih2 c₀]
      | some pr =>
        obtain ⟨g, rest⟩ := pr
        obtain ⟨w1, w2, hs, hw1ne, hw1, hw2ne, hw2⟩ := matchA_spec hm
        have hlen := matchA_length hm
        simp only [List.length_cons] at h hlen
        obtain ⟨ih1, ih2⟩ := ih rest (by omega)
        rw [subA_match hm]
        have hshape : repA g ++ subA rest =
            ('\'' :: '\\' :: 'n' :: '-' :: ' ' :: g) ++ '\'' :: subA rest := by
          simp [repA]
        have hout : pairCount '\\' '~' (repA g ++ subA rest) =
            pairCount '\\' '~' (g ++ ['\'']) + pairCount '\\' '~' ('\'' :: rest) := by
          rw [hshape, pairCount_append_cons]
          have h5 : pairCount '\\' '~'
              (('\'' :: '\\' :: 'n' :: '-' :: ' ' :: g) ++ ['\'']) =
              pairCount '\\' '~' (g ++ ['\'']) := by
            simp only [List.cons_append]
            rw [pairCount_cons_cons_zero (by simp),
              pairCount_cons_cons_zero (by simp),
              pairCount_cons_cons_zero (by simp),
              pairCount_cons_cons_zero (by simp),
              pairCount_cons_not_left '~' (by simp)]
          rw [h5, ih2 '\'']
        obtain ⟨wx, w2', rfl⟩ : ∃ wx w2', w2 = wx :: w2' := by
          cases w2 with
          | nil => exact absurd rfl hw2ne
          | cons a t => exact ⟨a, t, rfl⟩
        have hin : pairCount '\\' '~'
            ('\'' :: '•' :: (w1 ++ (g ++ ((wx :: w2') ++ '\'' :: rest)))) =
            pairCount '\\' '~' (g ++ ['\'']) + pairCount '\\' '~' ('\'' :: rest) := by
          rw [pairCount_cons_cons_zero (by simp),
            pairCount_cons_not_left '~' (by simp),
            pairCount_append_not_left '~' w1 _
              (fun x hx => pySpace_ne_backslash (hw1 x hx))]
          have halign : g ++ ((wx :: w2') ++ '\'' :: rest) =
              g ++ wx :: (w2' ++ '\'' :: rest) := by simp
          rw [halign, pairCount_append_cons]
          have hws : pairCount '\\' '~' (wx :: (w2' ++ '\'' :: rest)) =
              pairCount '\\' '~' ('\'' :: rest) := by
            have hall : ∀ x ∈ wx :: w2', x ≠ '\\' :=
              fun x hx => pySpace_ne_backslash (hw2 x hx)
            have h' := pairCount_append_not_left '~' (wx :: w2') ('\'' :: rest) hall
            simpa using h'
          rw [hws, pairCount_append_single_ne g wx '\''
            (pySpace_ne_tilde (hw2 wx (by simp))) (by simp)]
        constructor
        · rw [hs, hout, hin]
        · intro c
          rw [hs]
          have hL : pairCount '\\' '~' (c :: (repA g ++ subA rest)) =
              pairCount '\\' '~' (repA g ++ subA rest) := by
            rw [hshape]
            simp only [List.cons_append]
            rw [pairCount_cons_cons_zero (by simp)]
          have hR : pairCount '\\' '~'
              (c :: '\'' :: '•' :: (w1 ++ (g ++ ((wx :: w2') ++ '\'' :: rest)))) =
              pairCount '\\' '~'
              ('\'' :: '•' :: (w1 ++ (g ++ ((wx :: w2') ++ '\'' :: rest)))) :=
            pairCount_cons_cons_zero (by simp)
          rw [hL, hR, hout, hin]

/-- Pass B neither creates nor destroys backslash-tilde pairs. -/
theorem pairCount_subB_aux : ∀ (n : Nat) (s : List Char), s.length ≤ n →
    pairCount '\\' '~' (subB s) = pairCount '\\' '~' s ∧
    ∀ c, pairCount '\\' '~' (c :: subB s) = pairCount '\\' '~' (c :: s) := by
  intro n
  induction n with
  | zero =>
    intro s h
    have hs : s = [] := List.eq_nil_of_length_eq_zero (Nat.le_zero.mp h)
    subst hs
    exact ⟨rfl, fun _ => rfl⟩
  | succ n ih =>
    intro s h
    match s with
    | [] => exact ⟨rfl, fun _ => rfl⟩
    | c₀ :: cs =>
      cases hm : matchB (c₀ :: cs) with
      | none =>
        have htl : cs.length ≤ n := by simp only [List.length_cons] at h; omega
        obtain ⟨ih1, ih2⟩ := ih cs htl
        rw [subB_nomatch hm]
        refine ⟨ih2 c₀, fun c => ?_⟩
        rw [pairCount_cons_cons, pairCount_cons_cons, ih2 c₀]
      | some pr =>
        obtain ⟨g, rest⟩ := pr
        obtain ⟨hn0, rest', hd, hm0, hg, hrest⟩ := matchB_spec hm
        have hlen := matchB_length hm
        simp only [List.length_cons] at h hlen
        obtain ⟨ih1, ih2⟩ := ih rest (by omega)
        rw [subB_match hm]
        -- the decomposition of the input
        have hw : ∀ x ∈ (c₀ :: cs).take (spaceRun (c₀ :: cs)), pySpace x = true :=
          take_le_spaceRun_all (le_refl _)
        have hw2 : ∀ x ∈ rest'.take (spaceRun rest'), pySpace x = true :=
          take_le_spaceRun_all (le_refl _)
        have hrdec : rest' = rest'.take (spaceRun rest') ++ rest := by
          conv_lhs => rw [← List.take_append_drop (spaceRun rest') rest']
          rw [hrest]
        have hsdec : (c₀ :: cs) = (c₀ :: cs).take (spaceRun (c₀ :: cs)) ++
            ('\'' :: '•' :: (rest'.take (spaceRun rest') ++ rest)) := by
          conv_lhs => rw [← List.take_append_drop (spaceRun (c₀ :: cs)) (c₀ :: cs)]
          rw [hd, ← hrdec]
        have hout : pairCount '\\' '~' (repB g ++ subB rest) =
            pairCount '\\' '~' rest := by
          have hshape : repB g ++ subB rest =
              g ++ ('\'' :: '\\' :: 'n' :: '-' :: ' ' :: subB rest) := by
            simp [repB]
          rw [hshape, hg]
          rw [pairCount_append_not_left '~' _ _
            (fun x hx => pySpace_ne_backslash (hw x hx))]
          rw [pairCount_cons_cons_zero (by simp),
            pairCount_cons_cons_zero (by simp),
            pairCount_cons_cons_zero (by simp),
            pairCount_cons_cons_zero (by simp),
            pairCount_cons_not_left '~' (by simp)]
          exact ih1
        have hin : pairCount '\\' '~' (c₀ :: cs) = pairCount '\\' '~' rest := by
          conv_lhs => rw [hsdec]
          rw [pairCount_append_not_left '~' _ _
            (fun x hx => pySpace_ne_backslash (hw x hx))]
          rw [pairCount_cons_cons_zero (by simp),
            pairCount_cons_not_left '~' (by simp)]
          exact pairCount_append_not_left '~' _ _
            (fun x hx => pySpace_ne_backslash (hw2 x hx))
        refine ⟨by rw [hout, hin], fun c => ?_⟩
        -- both texts start with the same whitespace character `c₀`
        obtain ⟨w0, t0, hw0, hwx⟩ := spaceRun_head hn0
        have hc0ws : pySpace c₀ = true := by
          injection hw0 with hh1 hh2
          rw [hh1]; exact hwx
        obtain ⟨m, hmeq⟩ : ∃ m, spaceRun (c₀ :: cs) = m + 1 :=
          ⟨spaceRun (c₀ :: cs) - 1, by omega⟩
        have hghead : g = c₀ :: cs.take m := by
          rw [hg, hmeq, List.take_succ_cons]
        have hout_shape : repB g ++ subB rest =
            c₀ :: ((cs.take m ++ ['\'', '\\', 'n', '-', ' ']) ++ subB rest) := by
          rw [hghead]; simp [repB]
        have hLz : pairCount '\\' '~' (c :: (repB g ++ subB rest)) =
            pairCount '\\' '~' (repB g ++ subB rest) := by
          rw [hout_shape]
          exact pairCount_cons_cons_zero (fun hh => (pySpace_ne_tilde hc0ws) hh.2)
        have hRz : pairCount '\\' '~' (c :: c₀ :: cs) =
            pairCount '\\' '~' (c₀ :: cs) :=
          pairCount_cons_cons_zero (fun hh => (pySpace_ne_tilde hc0ws) hh.2)
        rw [hLz, hRz, hout, hin]

/-- A literal replacement with quote-delimited literal and replacement of
equal backslash-tilde pair count preserves the pair count of the text. -/
theorem pairCount_strReplace_aux (p r pmid rmid : List Char)
    (hp : p = '"' :: (pmid ++ ['"'])) (hr : r = '"' :: (rmid ++ ['"']))
    (hpc : pairCount '\\' '~' p = pairCount '\\' '~' r) :
    ∀ (n : Nat) (s : List Char), s.length ≤ n →
    pairCount '\\' '~' (strReplace p r s) = pairCount '\\' '~' s ∧
    ∀ c, pairCount '\\' '~' (c :: strReplace p r s) = pairCount '\\' '~' (c :: s) := by
  have hsplitP : ∀ X : List Char, pairCount '\\' '~' (p ++ X) =
      pairCount '\\' '~' p + pairCount '\\' '~' ('"' :: X) := by
    intro X
    have h1 : p ++ X = ('"' :: pmid) ++ '"' :: X := by rw [hp]; simp
    have h2 : ('"' :: pmid) ++ ['"'] = p := by rw [hp]; simp
    rw [h1, pairCount_append_cons, h2]
  have hsplitR : ∀ X : List Char, pairCount '\\' '~' (r ++ X) =
      pairCount '\\' '~' r + pairCount '\\' '~' ('"' :: X) := by
    intro X
    have h1 : r ++ X = ('"' :: rmid) ++ '"' :: X := by rw [hr]; simp
    have h2 : ('"' :: rmid) ++ ['"'] = r := by rw [hr]; simp
    rw [h1, pairCount_append_cons, h2]
  intro n
  induction n with
  | zero =>
    intro s h
    have hs : s = [] := List.eq_nil_of_length_eq_zero (Nat.le_zero.mp h)
    subst hs
    exact ⟨rfl, fun _ => rfl⟩
  | succ n ih =>
    intro s h
    match s with
    | [] => exact ⟨rfl, fun _ => rfl⟩
    | c₀ :: cs =>
      cases hm : mR p r (c₀ :: cs) with
      | none =>
        have htl : cs.length ≤ n := by simp only [List.length_cons] at h; omega
        obtain ⟨ih1, ih2⟩ := ih cs htl
        rw [strReplace_mR_nomatch hm]
        refine ⟨ih2 c₀, fun c => ?_⟩
        rw [pairCount_cons_cons, pairCount_cons_cons, ih2 c₀]
      | some pr =>
        obtain ⟨rep, rest⟩ := pr
        have hcond : p.isPrefixOf (c₀ :: cs) = true ∧ rep = r ∧
            rest = (c₀ :: cs).drop p.length := by
          simp only [mR] at hm
          split at hm
          next hcc =>
            simp only [Option.some.injEq, Prod.mk.injEq] at hm
            exact ⟨hcc.1, hm.1.symm, hm.2.symm⟩
          · simp at hm
        obtain ⟨hpre, hrepr, hrests⟩ := hcond
        subst hrests
        rw [hrepr] at hm
        rw [strReplace_mR_match hm]
        have hdec : (c₀ :: cs) = p ++ (c₀ :: cs).drop p.length :=
          eq_append_drop_of_isPrefixOf hpre
        have hlp : 0 < p.length := by rw [hp]; simp
        have hlen : ((c₀ :: cs).drop p.length).length = (c₀ :: cs).length - p.length :=
          List.length_drop _ _
        simp only [List.length_cons] at h hlen
        obtain ⟨ih1, ih2⟩ := ih ((c₀ :: cs).drop p.length) (by omega)
        have hq : pairCount '\\' '~' (r ++ strReplace p r ((c₀ :: cs).drop p.length)) =
            pairCount '\\' '~' (c₀ :: cs) := by
          conv_rhs => rw [hdec]
          rw [hsplitR, hsplitP, hpc]
          congr 1
          -- pc ('"' :: SR t) = pc ('"' :: t)
          exact ih2 '"'
        refine ⟨hq, fun c => ?_⟩
        have hc₀ : c₀ = '"' := by
          have h8 : p.isPrefixOf (c₀ :: cs) = true := hpre
          rw [hp] at h8
          have hx : ('"' == c₀) = true ∧
              (pmid ++ ['"']).isPrefixOf cs = true := by
            simpa using h8
          have hy : ('"' : Char) = c₀ := by simpa using hx.1
          exact hy.symm
        subst hc₀
        have hLz : pairCount '\\' '~'
            (c :: (r ++ strReplace p r (('"' :: cs).drop p.length))) =
            pairCount '\\' '~' (r ++ strReplace p r (('"' :: cs).drop p.length)) := by
          have hshape : r ++ strReplace p r (('"' :: cs).drop p.length) =
              '"' :: ((rmid ++ ['"']) ++ strReplace p r (('"' :: cs).drop p.length)) := by
            rw [hr]; simp
          rw [hshape]
          exact pairCount_cons_cons_zero (by simp)
        have hRz : pairCount '\\' '~' (c :: '"' :: cs) =
            pairCount '\\' '~' ('"' :: cs) :=
          pairCount_cons_cons_zero (by simp)
        rw [hLz, hRz, hq]

theorem pairCount_subA (s : List Char) :
    pairCount '\\' '~' (subA s) = pairCount '\\' '~' s :=
  (pairCount_subA_aux s.length s (le_refl _)).1

theorem pairCount_subB (s : List Char) :
    pairCount '\\' '~' (subB s) = pairCount '\\' '~' s :=
  (pairCount_subB_aux s.length s (le_refl _)).1

theorem pairCount_renames (s : List Char) :
    pairCount '\\' '~' (renames s) = pairCount '\\' '~' s := by
  unfold renames
  rw [(pairCount_strReplace_aux p4 r4 "update_device_property".toList
      "update_resource_property".toList (by decide) (by decide) (by decide)
      _ _ (le_refl _)).1,
    (pairCount_strReplace_aux p3 r3 "list_device_properties".toList
      "list_resource_properties".toList (by decide) (by decide) (by decide)
      _ _ (le_refl _)).1,
    (pairCount_strReplace_aux p2 r2 "list_device_datasources".toList
      "list_resource_datasources".toList (by decide) (by decide) (by decide)
      _ _ (le_refl _)).1,
    (pairCount_strReplace_aux p1 r1 "create_device_sdt".toList
      "create_resource_sdt".toList (by decide) (by decide) (by decide)
      _ _ (le_refl _)).1]

/-! ## Bullets not followed by whitespace survive every pass -/

theorem bbW_cons (c : Char) (l : List Char) (w : Bool) :
    bbW (c :: l) w = (if c = '•' ∧ bbCtx l w = false then 1 else 0) + bbW l w := by
  match l with
  | [] => simp [bbW, bbCtx]
  | d :: t => rfl

theorem bbW_cons_not_bullet {c : Char} (hc : c ≠ '•') (l : List Char) (w : Bool) :
    bbW (c :: l) w = bbW l w := by
  rw [bbW_cons, if_neg (fun hh => hc hh.1)]
  exact Nat.zero_add _

theorem bbW_cons_of_ctx_true (c : Char) {l : List Char} {w : Bool}
    (h : bbCtx l w = true) : bbW (c :: l) w = bbW l w := by
  rw [bbW_cons, h]
  simp

theorem bbCtx_congr {u v : List Char} (h : u.head? = v.head?) (w : Bool) :
    bbCtx u w = bbCtx v w := by
  unfold bbCtx
  rw [h]

theorem bbCtx_append (u v : List Char) (w : Bool) :
    bbCtx (u ++ v) w = bbCtx u (bbCtx v w) := by
  match u with
  | [] => rfl
  | c :: u' => rfl

theorem bbW_append : ∀ (u v : List Char) (w : Bool),
    bbW (u ++ v) w = bbW u (bbCtx v w) + bbW v w := by
  intro u
  induction u with
  | nil => intro v w; simp [bbW]
  | cons c u' ih =>
    intro v w
    simp only [List.cons_append]
    rw [bbW_cons, bbW_cons, ih, bbCtx_append]
    omega

theorem bbW_no_bullet : ∀ (u : List Char), '•' ∉ u → ∀ w, bbW u w = 0 := by
  intro u
  induction u with
  | nil => intro _ _; rfl
  | cons c t ih =>
    intro h w
    have hc : c ≠ '•' := by
      intro he
      subst he
      exact h (List.mem_cons_self _ _)
    rw [bbW_cons_not_bullet hc]
    exact ih (fun hm => h (List.mem_cons_of_mem c hm)) w

theorem not_bullet_mem_of_ws {u : List Char} (h : ∀ x ∈ u, pySpace x = true) :
    '•' ∉ u := by
  intro hmem
  exact absurd (h '•' hmem) (by decide)

theorem bbCtx_of_head_ws {u : List Char} (hne : u ≠ [])
    (hws : ∀ x ∈ u, pySpace x = true) (X : List Char) (w : Bool) :
    bbCtx (u ++ X) w = true := by
  match u, hne with
  | x :: u', _ =>
    show pySpace x = true
    exact hws x (List.mem_cons_self _ _)

/-- Turning the after-text context from whitespace to non-whitespace can
only make the last character a new bad bullet, never lose one. -/
theorem bbW_true_le_false : ∀ (u : List Char), bbW u true ≤ bbW u false := by
  intro u
  induction u with
  | nil => exact Nat.le_refl 0
  | cons c t ih =>
    match t, ih with
    | [], _ => simp [bbW]
    | d :: t', ih =>
      rw [bbW_cons c (d :: t') true, bbW_cons c (d :: t') false]
      exact Nat.add_le_add_left ih _

theorem bbCtx_escTilde1 (t : List Char) (w : Bool) :
    bbCtx (escTilde1 t) w = bbCtx t w := by
  match t with
  | [] => rfl
  | d :: t' =>
    by_cases hd : d = '~'
    · subst hd
      show pySpace '\\' = pySpace '~'
      decide
    · have he : escTilde1 (d :: t') = d :: escTilde1 t' := by
        simp [escTilde1, hd]
      rw [he]
      rfl

/-- Escaping tildes neither creates nor destroys bad bullets: the bullet
marker is never a tilde, and the character after a bullet is whitespace
before escaping exactly when it is after (a tilde becomes a backslash,
both non-whitespace). -/
theorem bbW_escTilde1 : ∀ (u : List Char) (w : Bool), bbW (escTilde1 u) w = bbW u w := by
  intro u
  induction u with
  | nil => intro w; rfl
  | cons c t ih =>
    intro w
    have hbs : ('\\' : Char) ≠ '•' := by decide
    have htl : ('~' : Char) ≠ '•' := by decide
    by_cases hc : c = '~'
    · subst hc
      show bbW ('\\' :: '~' :: escTilde1 t) w = bbW ('~' :: t) w
      rw [bbW_cons_not_bullet hbs, bbW_cons_not_bullet htl,
        bbW_cons_not_bullet htl, ih w]
    · have he : escTilde1 (c :: t) = c :: escTilde1 t := by simp [escTilde1, hc]
      rw [he, bbW_cons, bbW_cons, bbCtx_escTilde1, ih w]

theorem bbW_escape_tildes (full : List Char) (w : Bool) :
    bbW (escape_tildes full) w = bbW full w := by
  unfold escape_tildes
  split
  · rfl
  · exact bbW_escTilde1 full w

/-- Pass A preserves the first character of the text. -/
theorem subA_head (s : List Char) : (subA s).head? = s.head? := by
  match s with
  | [] => rfl
  | c :: cs =>
    cases hm : matchA (c :: cs) with
    | none =>
      rw [subA_nomatch hm]
      rfl
    | some pr =>
      obtain ⟨g, rest⟩ := pr
      obtain ⟨rest₀, hs, -⟩ := matchA_some_shape hm
      rw [subA_match hm]
      injection hs with h1 h2
      rw [h1]
      rfl

/-- Pass B preserves the first character of the text. -/
theorem subB_head (s : List Char) : (subB s).head? = s.head? := by
  match s with
  | [] => rfl
  | c :: cs =>
    cases hm : matchB (c :: cs) with
    | none =>
      rw [subB_nomatch hm]
      rfl
    | some pr =>
      obtain ⟨g, rest⟩ := pr
      obtain ⟨hn0, rest', hd, hm0, hg, hrest⟩ := matchB_spec hm
      rw [subB_match hm]
      obtain ⟨m, hmeq⟩ : ∃ m, spaceRun (c :: cs) = m + 1 :=
        ⟨spaceRun (c :: cs) - 1, by omega⟩
      have hghead : g = c :: cs.take m := by
        rw [hg, hmeq, List.take_succ_cons]
      rw [hghead]
      rfl

/-- The tilde pass preserves the first character of the text. -/
theorem subTilde_head (s : List Char) : (subTilde s).head? = s.head? := by
  match s with
  | [] => rfl
  | c :: cs =>
    cases hm : matchT (c :: cs) with
    | none =>
      rw [subTilde_nomatch hm]
      rfl
    | some pr =>
      obtain ⟨full, rest⟩ := pr
      obtain ⟨body, hs, hfull, -, -⟩ := matchT_spec hm
      rw [subTilde_match hm]
      injection hs with h1 h2
      rw [h1, hfull]
      unfold escape_tildes
      split
      · rfl
      · rfl

/-- A literal replacement whose replacement is nonempty and starts with
the pattern's first character preserves the first character of the text. -/
theorem strReplace_head {p r : List Char} (hrne : r ≠ []) (hh : p.head? = r.head?)
    (s : List Char) : (strReplace p r s).head? = s.head? := by
  match s with
  | [] => rfl
  | c :: cs =>
    cases hm : mR p r (c :: cs) with
    | none =>
      rw [strReplace_mR_nomatch hm]
      rfl
    | some pr' =>
      obtain ⟨rep, rest⟩ := pr'
      have hcond : p.isPrefixOf (c :: cs) = true ∧ p ≠ [] ∧ rep = r := by
        simp only [mR] at hm
        split at hm
        next hcc =>
          simp only [Option.some.injEq, Prod.mk.injEq] at hm
          exact ⟨hcc.1, hcc.2, hm.1.symm⟩
        · simp at hm
      obtain ⟨hpre, hpne, hrep⟩ := hcond
      rw [strReplace_mR_match hm, hrep]
      match p, hpne, hpre, hh with
      | y :: p', _, hpre, hh =>
        match r, hrne, hh with
        | x :: r', _, hh =>
          have hd := eq_append_drop_of_isPrefixOf hpre
          injection hd with hd1 hd2
          simp only [List.head?_cons, Option.some.injEq] at hh
          rw [hd1, hh]
          rfl

/-- Decomposition of a pass-B match: the all-whitespace captured run,
the quote-bullet pair, a nonempty all-whitespace run, then the rest. -/
theorem matchB_decomp {s g rest : List Char} (h : matchB s = some (g, rest)) :
    ∃ w2, s = g ++ ('\'' :: '•' :: (w2 ++ rest)) ∧
      (∀ x ∈ g, pySpace x = true) ∧ w2 ≠ [] ∧ (∀ x ∈ w2, pySpace x = true) := by
  obtain ⟨hn0, rest', hd, hm0, hg, hrest⟩ := matchB_spec h
  refine ⟨rest'.take (spaceRun rest'), ?_, ?_, ?_, take_le_spaceRun_all (le_refl _)⟩
  · have hrdec : rest' = rest'.take (spaceRun rest') ++ rest := by
      conv_lhs => rw [← List.take_append_drop (spaceRun rest') rest']
      rw [hrest]
    conv_lhs => rw [← List.take_append_drop (spaceRun s) s]
    rw [hd, ← hg, ← hrdec]
  · rw [hg]
    exact take_le_spaceRun_all (le_refl _)
  · intro hemp
    have hlt : (rest'.take (spaceRun rest')).length = spaceRun rest' := by
      rw [List.length_take, Nat.min_eq_left (spaceRun_le_length rest')]
    rw [hemp] at hlt
    simp only [List.length_nil] at hlt
    exact hm0 (by omega)

/-- Pass A never decreases the bad-bullet count: a bullet not followed
by whitespace lies outside every match or inside the copied group, and
each match replaces only its whitespace-followed bullet. -/
theorem bbW_subA_le : ∀ (n : Nat) (s : List Char), s.length ≤ n →
    ∀ w, bbW s w ≤ bbW (subA s) w := by
  intro n
  induction n with
  | zero =>
    intro s h w
    have hs : s = [] := List.eq_nil_of_length_eq_zero (Nat.le_zero.mp h)
    subst hs
    exact Nat.le_refl 0
  | succ n ih =>
    intro s h w
    match s with
    | [] => exact Nat.le_refl 0
    | c :: cs =>
      cases hm : matchA (c :: cs) with
      | none =>
        have htl : cs.length ≤ n := by simp only [List.length_cons] at h; omega
        rw [subA_nomatch hm, bbW_cons, bbW_cons,
          bbCtx_congr (subA_head cs) w]
        exact Nat.add_le_add_left (ih cs htl w) _
      | some pr =>
        obtain ⟨g, rest⟩ := pr
        obtain ⟨w1, w2, hs, hw1ne, hw1, hw2ne, hw2⟩ := matchA_spec hm
        have hlen := matchA_length hm
        simp only [List.length_cons] at h hlen
        have hrest : rest.length ≤ n := by omega
        have hq : ('\'' : Char) ≠ '•' := by decide
        rw [subA_match hm]
        have hin : bbW (c :: cs) w = bbW g true + bbW rest w := by
          rw [hs, bbW_cons_not_bullet hq,
            bbW_cons_of_ctx_true '•' (bbCtx_of_head_ws hw1ne hw1 _ w),
            bbW_append w1, bbW_no_bullet w1 (not_bullet_mem_of_ws hw1),
            bbW_append g, bbCtx_of_head_ws hw2ne hw2,
            bbW_append w2, bbW_no_bullet w2 (not_bullet_mem_of_ws hw2),
            bbW_cons_not_bullet hq]
          omega
        have hout : bbW (repA g ++ subA rest) w =
            bbW g false + bbW (subA rest) w := by
          have hbs : ('\\' : Char) ≠ '•' := by decide
          have hn2 : ('n' : Char) ≠ '•' := by decide
          have hdash : ('-' : Char) ≠ '•' := by decide
          have hsp : (' ' : Char) ≠ '•' := by decide
          have hctx : ∀ b, bbCtx ['\''] b = false := fun b => rfl
          have hone : ∀ b, bbW ['\''] b = 0 := fun b => by simp [bbW]
          rw [bbW_append (repA g)]
          simp only [repA]
          rw [bbW_cons_not_bullet hq, bbW_cons_not_bullet hbs,
            bbW_cons_not_bullet hn2, bbW_cons_not_bullet hdash,
            bbW_cons_not_bullet hsp, bbW_append g, hctx, hone]
          omega
        rw [hin, hout]
        exact Nat.add_le_add (bbW_true_le_false g) (ih rest hrest w)

/-- Pass B preserves the bad-bullet count exactly: a match consists of
whitespace, a quote and a whitespace-followed bullet, and its
replacement introduces no bullet. -/
theorem bbW_subB_eq : ∀ (n : Nat) (s : List Char), s.length ≤ n →
    ∀ w, bbW (subB s) w = bbW s w := by
  intro n
  induction n with
  | zero =>
    intro s h w
    have hs : s = [] := List.eq_nil_of_length_eq_zero (Nat.le_zero.mp h)
    subst hs
    rfl
  | succ n ih =>
    intro s h w
    match s with
    | [] => rfl
    | c :: cs =>
      cases hm : matchB (c :: cs) with
      | none =>
        have htl : cs.length ≤ n := by simp only [List.length_cons] at h; omega
        rw [subB_nomatch hm, bbW_cons, bbW_cons,
          bbCtx_congr (subB_head cs) w, ih cs htl w]
      | some pr =>
        obtain ⟨g, rest⟩ := pr
        obtain ⟨w2, hsdec, hgws, hw2ne, hw2⟩ := matchB_decomp hm
        have hlen := matchB_length hm
        simp only [List.length_cons] at h hlen
        have hrest : rest.length ≤ n := by omega
        have hq : ('\'' : Char) ≠ '•' := by decide
        rw [subB_match hm]
        have hin : bbW (c :: cs) w = bbW rest w := by
          rw [hsdec, bbW_append g, bbW_no_bullet g (not_bullet_mem_of_ws hgws),
            bbW_cons_not_bullet hq,
            bbW_cons_of_ctx_true '•' (bbCtx_of_head_ws hw2ne hw2 _ w),
            bbW_append w2, bbW_no_bullet w2 (not_bullet_mem_of_ws hw2)]
          omega
        have hout : bbW (repB g ++ subB rest) w = bbW (subB rest) w := by
          have hz : ∀ b, bbW (repB g) b = 0 := by
            intro b
            apply bbW_no_bullet
            intro hmem
            simp only [repB, List.mem_append] at hmem
            rcases hmem with hmem | hmem
            · exact not_bullet_mem_of_ws hgws hmem
            · simp at hmem
          rw [bbW_append (repB g), hz]
          omega
        rw [hout, hin, ih rest hrest w]

/-- The tilde pass preserves the bad-bullet count exactly. -/
theorem bbW_subTilde_eq : ∀ (n : Nat) (s : List Char), s.length ≤ n →
    ∀ w, bbW (subTilde s) w = bbW s w := by
  intro n
  induction n with
  | zero =>
    intro s h w
    have hs : s = [] := List.eq_nil_of_length_eq_zero (Nat.le_zero.mp h)
    subst hs
    rfl
  | succ n ih =>
    intro s h w
    match s with
    | [] => rfl
    | c :: cs =>
      cases hm : matchT (c :: cs) with
      | none =>
        have htl : cs.length ≤ n := by simp only [List.length_cons] at h; omega
        rw [subTilde_nomatch hm, bbW_cons, bbW_cons,
          bbCtx_congr (subTilde_head cs) w, ih cs htl w]
      | some pr =>
        obtain ⟨full, rest⟩ := pr
        have hdec := matchT_decomp hm
        have hlen := matchT_length hm
        simp only [List.length_cons] at h hlen
        have hrest : rest.length ≤ n := by omega
        rw [subTilde_match hm, bbW_append (escape_tildes full), bbW_escape_tildes,
          bbCtx_congr (subTilde_head rest) w, ih rest hrest w]
        conv_rhs => rw [hdec]
        rw [bbW_append full]

/-- A literal replacement whose pattern and replacement contain no
bullet marker, agree on their first character, and whose replacement is
nonempty preserves the bad-bullet count. -/
theorem bbW_strReplace_eq (p r : List Char) (hbp : '•' ∉ p) (hbr : '•' ∉ r)
    (hrne : r ≠ []) (hh : p.head? = r.head?) :
    ∀ (n : Nat) (s : List Char), s.length ≤ n →
    ∀ w, bbW (strReplace p r s) w = bbW s w := by
  intro n
  induction n with
  | zero =>
    intro s h w
    have hs : s = [] := List.eq_nil_of_length_eq_zero (Nat.le_zero.mp h)
    subst hs
    rfl
  | succ n ih =>
    intro s h w
    match s with
    | [] => rfl
    | c :: cs =>
      cases hm : mR p r (c :: cs) with
      | none =>
        have htl : cs.length ≤ n := by simp only [List.length_cons] at h; omega
        rw [strReplace_mR_nomatch hm, bbW_cons, bbW_cons,
          bbCtx_congr (strReplace_head hrne hh cs) w, ih cs htl w]
      | some pr' =>
        obtain ⟨rep, rest⟩ := pr'
        have hcond : p.isPrefixOf (c :: cs) = true ∧ p ≠ [] ∧ rep = r ∧
            rest = (c :: cs).drop p.length := by
          simp only [mR] at hm
          split at hm
          next hcc =>
            simp only [Option.some.injEq, Prod.mk.injEq] at hm
            exact ⟨hcc.1, hcc.2, hm.1.symm, hm.2.symm⟩
          · simp at hm
        obtain ⟨hpre, hpne, hrep, hrestd⟩ := hcond
        have hdec : (c :: cs) = p ++ rest := by
          rw [hrestd]
          exact eq_append_drop_of_isPrefixOf hpre
        have hlen := mR_length p r _ _ _ hm
        simp only [List.length_cons] at h hlen
        have hrest : rest.length ≤ n := by omega
        rw [strReplace_mR_match hm, hrep,
          bbW_append r, bbW_no_bullet r hbr, ih rest hrest w]
        conv_rhs => rw [hdec]
        rw [bbW_append p, bbW_no_bullet p hbp]

theorem badBullets_subA_le (s : List Char) : badBullets s ≤ badBullets (subA s) :=
  bbW_subA_le s.length s (le_refl _) false

theorem badBullets_subB (s : List Char) : badBullets (subB s) = badBullets s :=
  bbW_subB_eq s.length s (le_refl _) false

theorem badBullets_subTilde (s : List Char) : badBullets (subTilde s) = badBullets s :=
  bbW_subTilde_eq s.length s (le_refl _) false

theorem badBullets_renames (s : List Char) : badBullets (renames s) = badBullets s := by
  show bbW (strReplace p4 r4 (strReplace p3 r3 (strReplace p2 r2
    (strReplace p1 r1 s)))) false = bbW s false
  rw [bbW_strReplace_eq p4 r4 (by decide) (by decide) (by decide) (by decide)
      _ _ (le_refl _) false,
    bbW_strReplace_eq p3 r3 (by decide) (by decide) (by decide) (by decide)
      _ _ (le_refl _) false,
    bbW_strReplace_eq p2 r2 (by decide) (by decide) (by decide) (by decide)
      _ _ (le_refl _) false,
    bbW_strReplace_eq p1 r1 (by decide) (by decide) (by decide) (by decide)
      _ _ (le_refl _) false]

/-! ## Each bullet pass only consumes bullet markers -/

theorem count_bullet_ws_zero {u : List Char} (h : ∀ x ∈ u, pySpace x = true) :
    List.count '•' u = 0 :=
  List.count_eq_zero.mpr (not_bullet_mem_of_ws h)

/-- Pass A never increases the bullet count: each match consumes exactly
the bullet after its opening quote and copies the group verbatim. -/
theorem count_subA_le : ∀ (n : Nat) (s : List Char), s.length ≤ n →
    List.count '•' (subA s) ≤ List.count '•' s := by
  intro n
  induction n with
  | zero =>
    intro s h
    have hs : s = [] := List.eq_nil_of_length_eq_zero (Nat.le_zero.mp h)
    subst hs
    exact Nat.le_refl 0
  | succ n ih =>
    intro s h
    match s with
    | [] => exact Nat.le_refl 0
    | c :: cs =>
      cases hm : matchA (c :: cs) with
      | none =>
        have htl : cs.length ≤ n := by simp only [List.length_cons] at h; omega
        rw [subA_nomatch hm, List.count_cons, List.count_cons]
        have := ih cs htl
        omega
      | some pr =>
        obtain ⟨g, rest⟩ := pr
        obtain ⟨w1, w2, hs, hw1ne, hw1, hw2ne, hw2⟩ := matchA_spec hm
        have hlen := matchA_length hm
        simp only [List.length_cons] at h hlen
        have hrest : rest.length ≤ n := by omega
        rw [subA_match hm, hs]
        simp only [repA, List.cons_append, List.count_append, List.count_cons]
        simp [count_bullet_ws_zero hw1, count_bullet_ws_zero hw2]
        have := ih rest hrest
        omega

/-- Pass B never increases the bullet count: each match consumes exactly
its one bullet and its replacement contains none. -/
theorem count_subB_le : ∀ (n : Nat) (s : List Char), s.length ≤ n →
    List.count '•' (subB s) ≤ List.count '•' s := by
  intro n
  induction n with
  | zero =>
    intro s h
    have hs : s = [] := List.eq_nil_of_length_eq_zero (Nat.le_zero.mp h)
    subst hs
    exact Nat.le_refl 0
  | succ n ih =>
    intro s h
    match s with
    | [] => exact Nat.le_refl 0
    | c :: cs =>
      cases hm : matchB (c :: cs) with
      | none =>
        have htl : cs.length ≤ n := by simp only [List.length_cons] at h; omega
        rw [subB_nomatch hm, List.count_cons, List.count_cons]
        have := ih cs htl
        omega
      | some pr =>
        obtain ⟨g, rest⟩ := pr
        obtain ⟨w2, hsdec, hgws, hw2ne, hw2⟩ := matchB_decomp hm
        have hlen := matchB_length hm
        simp only [List.length_cons] at h hlen
        have hrest : rest.length ≤ n := by omega
        rw [subB_match hm, hsdec]
        simp only [repB, List.cons_append, List.count_append, List.count_cons]
        simp [count_bullet_ws_zero hgws, count_bullet_ws_zero hw2]
        have := ih rest hrest
        omega

/-! ## The claims -/

/-- C1: applying the tilde-escaping substitution twice to any text gives
the same result as applying it once; re-running the rule on its own
output is the identity. -/
theorem tilde_escaping_idempotent (s : List Char) :
    subTilde (subTilde s) = subTilde s :=
  subTilde_idem_aux s.length s (le_refl _)

/-- C3: a matched `filter:"..."` span that already contains an escaped
tilde is emitted byte-for-byte unmodified by the tilde-escaping step —
including any unescaped tildes also present in it. -/
theorem escaped_span_left_unmodified (s full rest : List Char)
    (h1 : matchT s = some (full, rest)) (h2 : hasEscTilde full = true) :
    escape_tildes full = full ∧ subTilde s = full ++ subTilde rest :=
  ⟨escape_tildes_of_escaped h2,
   by rw [subTilde_match h1, escape_tildes_of_escaped h2]⟩

/-- Witness for C3: the span `filter:"a\~b~c"` mixes an escaped and an
unescaped tilde; it matches the pattern and is left entirely unchanged. -/
theorem escaped_span_left_unmodified_witness :
    matchT "filter:\"a\\~b~c\"".toList =
      some ("filter:\"a\\~b~c\"".toList, []) ∧
    hasEscTilde "filter:\"a\\~b~c\"".toList = true ∧
    (escape_tildes "filter:\"a\\~b~c\"".toList = "filter:\"a\\~b~c\"".toList ∧
     subTilde "filter:\"a\\~b~c\"".toList =
       "filter:\"a\\~b~c\"".toList ++ subTilde []) :=
  ⟨by decide, by decide,
   escaped_span_left_unmodified _ _ _ (by decide) (by decide)⟩

/-- C4: a matched `filter:"..."` span containing a tilde but no escaped
tilde has every tilde replaced by backslash-tilde (stated through the
spec's per-character description `escOne`); in particular
`filter:"name~*test*"` becomes `filter:"name\~*test*"`. -/
theorem unescaped_span_fully_escaped (s full rest : List Char)
    (h1 : matchT s = some (full, rest)) (h2 : hasEscTilde full = false) :
    subTilde s = (full.map escOne).flatten ++ subTilde rest ∧
    subTilde "filter:\"name~*test*\"".toList = "filter:\"name\\~*test*\"".toList := by
  constructor
  · have hesc : escape_tildes full = (full.map escOne).flatten := by
      unfold escape_tildes
      rw [if_neg (by simp [h2]), escTilde1_eq_flatten]
    rw [subTilde_match h1, hesc]
  · decide

/-- Witness for C4, instantiated at the spec's end-to-end example 2. -/
theorem unescaped_span_fully_escaped_witness :
    matchT "filter:\"name~*test*\"".toList =
      some ("filter:\"name~*test*\"".toList, []) ∧
    hasEscTilde "filter:\"name~*test*\"".toList = false ∧
    (subTilde "filter:\"name~*test*\"".toList =
      ("filter:\"name~*test*\"".toList.map escOne).flatten ++ subTilde [] ∧
     subTilde "filter:\"name~*test*\"".toList = "filter:\"name\\~*test*\"".toList) :=
  ⟨by decide, by decide,
   unescaped_span_fully_escaped _ _ _ (by decide) (by decide)⟩

/-- C5 counterexample: on `"create_device_sdt"create_device_sdt"` the
two occurrences of the legacy identifier overlap (they share the middle
quote); the rename replaces only the leftmost one, and a verbatim
occurrence of the legacy identifier survives in the output, so the
rename step does not replace every verbatim occurrence. -/
theorem rename_misses_overlapping_occurrence :
    occursIn p1 "\"create_device_sdt\"create_device_sdt\"".toList = true ∧
    renames "\"create_device_sdt\"create_device_sdt\"".toList =
      "\"create_resource_sdt\"create_device_sdt\"".toList ∧
    occursIn p1 (renames "\"create_device_sdt\"create_device_sdt\"".toList) = true :=
  ⟨by decide, by decide, by decide⟩

set_option maxRecDepth 8192 in
/-- C5 (amended): the rename step replaces every verbatim occurrence
that does not overlap an already-replaced one, and alters nothing else:
text without an occurrence is untouched; when the leftmost occurrence
starts right after `x`, the text before it is copied verbatim, the
occurrence becomes its current equivalent, and the scan continues after
it; and on text with the four legacy identifiers, all four are renamed. -/
theorem rename_replaces_nonoverlapping (p r x y s : List Char) (hp : p ≠ [])
    (h1 : occursIn p s = false)
    (h2 : occursIn p ((x ++ p ++ y).take (x.length + p.length - 1)) = false) :
    strReplace p r s = s ∧
    strReplace p r (x ++ p ++ y) = x ++ r ++ strReplace p r y ∧
    renames "Use \"create_device_sdt\" and \"list_device_datasources\" and \"list_device_properties\" and \"update_device_property\".".toList =
      "Use \"create_resource_sdt\" and \"list_resource_datasources\" and \"list_resource_properties\" and \"update_resource_property\".".toList := by
  refine ⟨strReplace_of_not_occursIn s h1, strReplace_leftmost x hp h2, ?_⟩
  decide

/-- Witness for the amended C5, instantiated at the first rename pair. -/
theorem rename_replaces_nonoverlapping_witness :
    p1 ≠ [] ∧
    occursIn p1 "no legacy names here".toList = false ∧
    occursIn p1 (("ab ".toList ++ p1 ++ " cd".toList).take
      ("ab ".toList.length + p1.length - 1)) = false ∧
    (strReplace p1 r1 "no legacy names here".toList = "no legacy names here".toList ∧
     strReplace p1 r1 ("ab ".toList ++ p1 ++ " cd".toList) =
       "ab ".toList ++ r1 ++ strReplace p1 r1 " cd".toList ∧
     renames "Use \"create_device_sdt\" and \"list_device_datasources\" and \"list_device_properties\" and \"update_device_property\".".toList =
       "Use \"create_resource_sdt\" and \"list_resource_datasources\" and \"list_resource_properties\" and \"update_resource_property\".".toList) :=
  ⟨by decide, by decide, by decide,
   rename_replaces_nonoverlapping p1 r1 "ab ".toList " cd".toList
     "no legacy names here".toList (by decide) (by decide) (by decide)⟩

/-- C6 counterexample: the claim quantifies over every input containing
both an inside-quote bullet `'• item '` and a continuation-line bullet,
but on `'• a '• item '` followed by a continuation bullet line — which
contains both forms verbatim — the leftmost pass-A match `'• a '`
consumes the opening quote of the `'• item '` span, so that span's
bullet is converted by neither pass: of the three bullet markers one
survives both passes, and the span `'• item '` is still present
verbatim in the output. -/
theorem bullet_pass_misses_overlapped_bullet :
    occursIn "'• item '".toList "'• a '• item '\n  '• item".toList = true ∧
    occursIn "\n  '• item".toList "'• a '• item '\n  '• item".toList = true ∧
    subA "'• a '• item '\n  '• item".toList =
      "'\\n- a'• item '\n  '• item".toList ∧
    subB (subA "'• a '• item '\n  '• item".toList) =
      "'\\n- a'• item '\n  '\\n- item".toList ∧
    List.count '•' "'• a '• item '\n  '• item".toList = 3 ∧
    List.count '•' (subB (subA "'• a '• item '\n  '• item".toList)) = 1 ∧
    occursIn "'• item '".toList
      (subB (subA "'• a '• item '\n  '• item".toList)) = true :=
  ⟨by decide, by decide, by decide, by decide, by decide, by decide, by decide⟩

/-- C6 (amended): pass A (bullets inside single-quoted spans) runs
before pass B (continuation-line bullets); each pass can only consume
bullet markers, never duplicate or re-create one, so no single bullet
occurrence is converted by both passes; and on input containing one
bullet of each form whose inside-quote span is not overlapped by an
earlier pass-A match, pass A converts exactly the inside-quote bullet,
pass B then converts the continuation bullet to the same escaped
newline-hyphen form, and no bullet remains. -/
theorem bullet_pass_ordering :
    (∀ s, pipeline s = renames (subTilde (subB (subA s)))) ∧
    (∀ s, List.count '•' (subA s) ≤ List.count '•' s) ∧
    (∀ s, List.count '•' (subB s) ≤ List.count '•' s) ∧
    subA "a '• item '\n  '• item".toList = "a '\\n- item'\n  '• item".toList ∧
    subB "a '\\n- item'\n  '• item".toList = "a '\\n- item'\n  '\\n- item".toList ∧
    List.count '•' "a '• item '\n  '• item".toList = 2 ∧
    List.count '•' "a '\\n- item'\n  '\\n- item".toList = 0 :=
  ⟨fun _ => rfl, fun s => count_subA_le s.length s (le_refl _),
   fun s => count_subB_le s.length s (le_refl _),
   by decide, by decide, by decide, by decide⟩

/-- C7: the spec's end-to-end example 1: the single-quoted span with a
bullet, `Supports wildcards`, and two trailing spaces becomes the
single-quoted escaped newline-hyphen form with the trailing spaces
trimmed; pass B then leaves that output unchanged. -/
theorem bullet_example_trailing_spaces_trimmed :
    subA "'• Supports wildcards  '".toList = "'\\n- Supports wildcards'".toList ∧
    subB (subA "'• Supports wildcards  '".toList) =
      "'\\n- Supports wildcards'".toList :=
  ⟨by decide, by decide⟩

/-- C8: on text with no bullet characters, with every matched
`filter:"..."` span already fully escaped, and with no occurrence of any
of the four legacy identifiers, the full pipeline is the identity. -/
theorem pipeline_noop_on_clean (s : List Char)
    (h1 : s.contains '•' = false) (h2 : escapedPieces s = true)
    (h3 : occursIn p1 s = false) (h4 : occursIn p2 s = false)
    (h5 : occursIn p3 s = false) (h6 : occursIn p4 s = false) :
    pipeline s = s := by
  have hb : hasBulletWs s = false := by
    apply hasBulletWs_eq_false_of_not_mem
    intro hmem
    rw [contains_iff.mpr hmem] at h1
    simp at h1
  unfold pipeline renames
  rw [subA_id_of_no_bulletWs s hb, subB_id_of_no_bulletWs s hb,
    escaped_subTilde_aux s.length s (le_refl _) h2,
    strReplace_of_not_occursIn s h3, strReplace_of_not_occursIn s h4,
    strReplace_of_not_occursIn s h5, strReplace_of_not_occursIn s h6]

/-- Witness for C8: a clean text with an already-escaped filter span and
a current (non-legacy) identifier. -/
theorem pipeline_noop_on_clean_witness :
    "Use filter:\"a\\~b\" with \"list_resource_properties\" now.".toList.contains '•' = false ∧
    escapedPieces "Use filter:\"a\\~b\" with \"list_resource_properties\" now.".toList = true ∧
    occursIn p1 "Use filter:\"a\\~b\" with \"list_resource_properties\" now.".toList = false ∧
    occursIn p2 "Use filter:\"a\\~b\" with \"list_resource_properties\" now.".toList = false ∧
    occursIn p3 "Use filter:\"a\\~b\" with \"list_resource_properties\" now.".toList = false ∧
    occursIn p4 "Use filter:\"a\\~b\" with \"list_resource_properties\" now.".toList = false ∧
    pipeline "Use filter:\"a\\~b\" with \"list_resource_properties\" now.".toList =
      "Use filter:\"a\\~b\" with \"list_resource_properties\" now.".toList :=
  ⟨by decide, by decide, by decide, by decide, by decide, by decide,
   pipeline_noop_on_clean _ (by decide) (by decide) (by decide) (by decide)
     (by decide) (by decide)⟩

/-- C9: for every input, a bullet marker not immediately followed by a
whitespace character is never consumed: both bullet patterns only ever
match text containing a whitespace-followed bullet, and counting the
bullet occurrences whose next character is not whitespace
(`badBullets`), pass A never drops the count (each match replaces only
its whitespace-followed bullet and copies the group verbatim) while
pass B, the tilde pass and the four renames preserve it exactly — so
such bullets survive the entire pipeline, as on the concrete input
whose two such bullets survive a run that does rewrite a tilde. -/
theorem nonspace_bullets_survive (s : List Char) :
    (∀ t, matchA t = none ∨ hasBulletWs t = true) ∧
    (∀ t, matchB t = none ∨ hasBulletWs t = true) ∧
    badBullets s ≤ badBullets (subA s) ∧
    badBullets (subB (subA s)) = badBullets (subA s) ∧
    badBullets (pipeline s) = badBullets (subA s) ∧
    badBullets s ≤ badBullets (pipeline s) ∧
    badBullets "see •linked filter:\"a~b\" and •!".toList = 2 ∧
    pipeline "see •linked filter:\"a~b\" and •!".toList =
      "see •linked filter:\"a\\~b\" and •!".toList ∧
    badBullets "see •linked filter:\"a\\~b\" and •!".toList = 2 := by
  have hA : ∀ t, matchA t = none ∨ hasBulletWs t = true := by
    intro t
    cases hm : matchA t with
    | none => exact Or.inl rfl
    | some pr =>
      obtain ⟨g, rest⟩ := pr
      exact Or.inr (hasBulletWs_of_matchA hm)
  have hB : ∀ t, matchB t = none ∨ hasBulletWs t = true := by
    intro t
    cases hm : matchB t with
    | none => exact Or.inl rfl
    | some pr =>
      obtain ⟨g, rest⟩ := pr
      exact Or.inr (hasBulletWs_of_matchB hm)
  have h3 : badBullets s ≤ badBullets (subA s) := badBullets_subA_le s
  have h4 : badBullets (subB (subA s)) = badBullets (subA s) := badBullets_subB _
  have h5 : badBullets (pipeline s) = badBullets (subA s) := by
    show badBullets (renames (subTilde (subB (subA s)))) = _
    rw [badBullets_renames, badBullets_subTilde, h4]
  exact ⟨hA, hB, h3, h4, h5, by omega, by decide, by decide, by decide⟩

/-- C10: the tilde substitution decomposes any text into unmatched
characters and matched spans: reassembling the pieces gives the text
back, the substitution rewrites exactly the matched spans (each of the
form `filter:"` + quote-free body with a tilde + `"`) and copies
everything else; and no other step creates or removes backslash-tilde
pairs — pass A, pass B and the renames all preserve their count. -/
theorem tilde_frame_conditions (s : List Char) :
    joinPieces (pieces s) = s ∧
    subTilde s = joinEscPieces (pieces s) ∧
    (pieces s).all goodPiece = true ∧
    pairCount '\\' '~' (subA s) = pairCount '\\' '~' s ∧
    pairCount '\\' '~' (subB s) = pairCount '\\' '~' s ∧
    pairCount '\\' '~' (renames s) = pairCount '\\' '~' s :=
  ⟨joinPieces_pieces s.length s (le_refl _),
   subTilde_eq_joinEsc s.length s (le_refl _),
   pieces_good s.length s (le_refl _),
   pairCount_subA s, pairCount_subB s, pairCount_renames s⟩

end FixMarkdown
